import Mathlib

/-!
Verification of the membership-inference attack data pipeline
(`shadow_models/cifar_models/extract_output.py` and
`shadow_models/synthetic_cifar_models/extract_output.py`).

The pipeline evaluates shadow classifier models on their train/test
partitions, records softmax probability vectors with membership flags,
deduplicates by exact probability vector, and aggregates everything into a
single stratified train/test dataset for an attacker model.

Probability values are embedded as exact rationals `ℚ`: the Python code
compares probability vectors by exact equality (`tuple(prob)` used as a
dict key), so the dedup logic is about exact equality of values, which `ℚ`
models faithfully.
-/

set_option autoImplicit false

namespace ExtractOutput

/-- A probability vector: one softmax output row, as exact values. -/
abbrev Prob := List ℚ

/-- One output record of a shadow model: probability vector, ground-truth
class label, membership flag (1 = train/member, 0 = test/non-member). -/
structure Entry where
  prob : Prob
  label : ℤ
  member : ℤ
deriving DecidableEq, Repr

/-- Result of the duplicate-filtering pass in `extract_probabilities`:
the three parallel filtered arrays (`filtered_probs`, `filtered_labels`,
`filtered_members`) plus the conflict messages printed by the loop, each
recorded as (probability vector, stored membership, new membership). -/
structure DedupOut where
  probabilities : List Prob
  labels : List ℤ
  members : List ℤ
  conflictLog : List (Prob × ℤ × ℤ)
deriving DecidableEq, Repr

/-- Lookup in the `unique_data` dict (embedded as an association list from
probability vector to first-seen membership flag). -/
def lookupMember : List (Prob × ℤ) → Prob → Option ℤ
  | [], _ => none
  | e :: rest, p => if e.1 = p then some e.2 else lookupMember rest p

/-- The duplicate-filtering loop of `extract_probabilities` (lines 127-145
of `cifar_models/extract_output.py`, 125-144 of the synthetic variant):
iterate over the zipped records; a record whose probability vector was not
seen yet is stored in `unique_data` and appended to all three filtered
lists; a record whose vector was seen with a different membership flag is
dropped and a conflict is printed; a record whose vector was seen with the
same membership flag is dropped silently. -/
def dedupGo (seen : List (Prob × ℤ)) : List Entry → DedupOut
  | [] => ⟨[], [], [], []⟩
  | e :: rest =>
    match lookupMember seen e.prob with
    | none =>
      let out := dedupGo ((e.prob, e.member) :: seen) rest
      ⟨e.prob :: out.probabilities, e.label :: out.labels,
       e.member :: out.members, out.conflictLog⟩
    | some m =>
      if m ≠ e.member then
        let out := dedupGo seen rest
        ⟨out.probabilities, out.labels, out.members,
         (e.prob, m, e.member) :: out.conflictLog⟩
      else
        dedupGo seen rest

/-- The duplicate-filtering pass, started with an empty `unique_data`. -/
def extractDedup (es : List Entry) : DedupOut := dedupGo [] es

/-- Zip the three parallel arrays back into records (Python `zip`:
truncates to the shortest input). -/
def zip3 : List Prob → List ℤ → List ℤ → List Entry
  | p :: ps, l :: ls, m :: ms => ⟨p, l, m⟩ :: zip3 ps ls ms
  | _, _, _ => []

/-- Pure specification of which records the dedup loop retains: the first
occurrence of each probability vector not already seen. -/
def keepFirsts (seen : List Prob) : List Entry → List Entry
  | [] => []
  | e :: rest =>
    if e.prob ∈ seen then keepFirsts seen rest
    else e :: keepFirsts (e.prob :: seen) rest

/-- Number of times probability vector `p` occurs in a list of vectors. -/
def countProb (l : List Prob) (p : Prob) : ℕ :=
  (l.filter (fun q => q = p)).length

/-- The state of the `unique_data` dict after processing a prefix of the
records. -/
def seenAfter (seen : List (Prob × ℤ)) : List Entry → List (Prob × ℤ)
  | [] => seen
  | e :: rest =>
    match lookupMember seen e.prob with
    | none => seenAfter ((e.prob, e.member) :: seen) rest
    | some _ => seenAfter seen rest

/-- One batch produced by the data loader: parallel (input, target) pairs
(`inputs` and `targets` of one `DataLoader` batch have equal length by
construction, which the pairing makes intrinsic). -/
abbrev Batch (α : Type) := List (α × ℤ)

/-- `np.allclose(s, 1.0)` with numpy's default tolerances
`rtol = 1e-5`, `atol = 1e-8`: `|s - 1| ≤ atol + rtol * |1.0|`, written as
the two-sided comparison `-(atol + rtol) ≤ s - 1 ∧ s - 1 ≤ atol + rtol`. -/
def sumsCloseToOne (probs : Prob) : Bool :=
  decide (-(1 / 100000000 + 1 / 100000 : ℚ) ≤ probs.sum - 1)
    && decide ((probs.sum - 1 : ℚ) ≤ 1 / 100000000 + 1 / 100000)

/-- Total number of samples yielded by a loader. -/
def loaderSize {α : Type} (loader : List (Batch α)) : ℕ :=
  (loader.map List.length).sum

/-- `get_outputs` (lines 99-117 of `cifar_models/extract_output.py`,
96-114 of the synthetic variant): for each batch, compute the softmax
probability rows, assert `np.allclose(probs.sum(axis=1), 1.0)` (an
assertion failure raises, aborting the extraction), and accumulate the
probability rows, the ground-truth labels, and one copy of `member_label`
per sample. The composite `softmax ∘ model` inference is the opaque
function `f`. -/
def get_outputs {α : Type} (f : α → Prob) (loader : List (Batch α))
    (memberLabel : ℤ) : Except String (List Prob × List ℤ × List ℤ) :=
  match loader with
  | [] => Except.ok ([], [], [])
  | batch :: rest =>
    if batch.all (fun s => sumsCloseToOne (f s.1)) then
      match get_outputs f rest memberLabel with
      | Except.ok (ps, ls, ms) =>
          Except.ok (batch.map (fun s => f s.1) ++ ps,
            batch.map (fun s => s.2) ++ ls,
            List.replicate batch.length memberLabel ++ ms)
      | Except.error e => Except.error e
    else Except.error "Probabilities do not sum up to 1!"

/-- The inputs of one `extract_probabilities` call: whether the model
checkpoint file exists, the opaque inference function, and the two
loaders. -/
structure ExtractEnv (α : Type) where
  modelExists : Bool
  f : α → Prob
  trainLoader : List (Batch α)
  testLoader : List (Batch α)

/-- Possible outcomes of `extract_probabilities`: early return when the
checkpoint is absent, an uncaught assertion failure, or the saved archive
(the three filtered arrays). -/
inductive ExtractResult
  | skippedModel
  | fatal (msg : String)
  | saved (out : DedupOut)
deriving DecidableEq, Repr

/-- The concatenated pre-dedup arrays of `extract_probabilities` (lines
119-125 / 116-123): train outputs with `member_label=1` stacked before
test outputs with `member_label=0`. -/
def preDedup {α : Type} (env : ExtractEnv α) :
    Except String (List Prob × List ℤ × List ℤ) :=
  match get_outputs env.f env.trainLoader 1 with
  | Except.error e => Except.error e
  | Except.ok (tp, tl, tm) =>
    match get_outputs env.f env.testLoader 0 with
    | Except.error e => Except.error e
    | Except.ok (sp, sl, sm) => Except.ok (tp ++ sp, tl ++ sl, tm ++ sm)

/-- `extract_probabilities` (lines 83-154 / 80-154): return early when the
model checkpoint is absent; compute the concatenated outputs (train with
member 1, then test with member 0), propagating a fatal assertion failure;
otherwise filter duplicates and save the result. -/
def extract_probabilities {α : Type} (env : ExtractEnv α) : ExtractResult :=
  if env.modelExists then
    match preDedup env with
    | Except.error e => ExtractResult.fatal e
    | Except.ok (ps, ls, ms) =>
        ExtractResult.saved (extractDedup (zip3 ps ls ms))
  else ExtractResult.skippedModel

/-- The per-id inputs of the `__main__` loop: whether the id's train/test
data archives and model checkpoint exist, and the id's loaders. -/
structure IdEnv (α : Type) where
  trainDataExists : Bool
  testDataExists : Bool
  modelExists : Bool
  f : α → Prob
  trainLoader : List (Batch α)
  testLoader : List (Batch α)

/-- The extraction environment of one shadow-model id. -/
def IdEnv.extractEnv {α : Type} (e : IdEnv α) : ExtractEnv α :=
  ⟨e.modelExists, e.f, e.trainLoader, e.testLoader⟩

/-- The console messages of the pipeline that matter to the error-handling
claims. -/
inductive LogEvent
  | dataMissing (id : ℕ)
  | modelMissing (id : ℕ)
  | savedArchive (id : ℕ)
deriving DecidableEq, Repr

/-- Outcome of running the `__main__` loop over a list of ids: the log,
the archives saved per id, and the uncaught exception, if any. -/
structure RunResult where
  log : List LogEvent
  archives : List (ℕ × DedupOut)
  fatalError : Option String
deriving DecidableEq, Repr

/-- The `__main__` loop (lines 205-221 / 156-172): for each id, if the
train or test data archive is absent, print a skip message and `continue`;
otherwise call `extract_probabilities`, which prints a skip message when
the checkpoint is absent, saves an archive on success, and lets an
assertion failure propagate (which aborts the remaining iterations). -/
def runIds {α : Type} (env : ℕ → IdEnv α) : List ℕ → RunResult
  | [] => ⟨[], [], none⟩
  | id :: rest =>
    if (env id).trainDataExists && (env id).testDataExists then
      match extract_probabilities (env id).extractEnv with
      | ExtractResult.skippedModel =>
        let r := runIds env rest
        ⟨LogEvent.modelMissing id :: r.log, r.archives, r.fatalError⟩
      | ExtractResult.fatal msg => ⟨[], [], some msg⟩
      | ExtractResult.saved out =>
        let r := runIds env rest
        ⟨LogEvent.savedArchive id :: r.log, (id, out) :: r.archives,
         r.fatalError⟩
    else
      let r := runIds env rest
      ⟨LogEvent.dataMissing id :: r.log, r.archives, r.fatalError⟩

/-- The shadow-model ids iterated by `__main__`: `range(1, 31)`. -/
def shadowModelIds : List ℕ := List.range' 1 30

/-- Modelled from the spec: the shadow-model data preparation stage that
writes each id's `train_data.npz` and `test_data.npz` is not part of the
two extraction scripts in the repository snapshot; the spec states that
"each shadow model evaluates strictly disjoint train/test sample sets".
We model the preparation as splitting a duplicate-free pool of sample
indices of one shadow model into an initial train segment and the
remaining test segment. -/
def partitionSamples (pool : List ℕ) (nTrain : ℕ) : List ℕ × List ℕ :=
  (pool.take nTrain, pool.drop nTrain)

/-- One per-shadow-model attack-data archive
(`shadow_model_{id}_attack_data.npz`): the three parallel arrays saved by
`extract_probabilities`. -/
structure Archive where
  probabilities : List Prob
  labels : List ℤ
  members : List ℤ
deriving DecidableEq, Repr

/-- `np.vstack(all_probabilities)` over the loaded archives. -/
def combinedProbs (archives : List Archive) : List Prob :=
  (archives.map Archive.probabilities).flatten

/-- `np.hstack(all_labels)` over the loaded archives. -/
def combinedLabels (archives : List Archive) : List ℤ :=
  (archives.map Archive.labels).flatten

/-- `np.hstack(all_members)` over the loaded archives. -/
def combinedMembers (archives : List Archive) : List ℤ :=
  (archives.map Archive.members).flatten

/-- `np.hstack((all_probabilities, all_labels.reshape(-1, 1)))`: each
feature row is the probability vector with the ground-truth label
appended. -/
def combinedFeatures (archives : List Archive) : List (List ℚ) :=
  List.zipWith (fun (p : Prob) (l : ℤ) => p ++ [(l : ℚ)])
    (combinedProbs archives) (combinedLabels archives)

/-- Number of occurrences of membership value `c` in a column. -/
def countMem (l : List ℤ) (c : ℤ) : ℕ :=
  (l.filter (fun x => x = c)).length

/-- The test-set size sklearn computes for `test_size=0.3`:
`ceil(0.3 * n) = ceil(3n/10)`. -/
def nTestOf (n : ℕ) : ℕ := (3 * n + 9) / 10

/-- The stratify classes: the distinct values of the stratify column, in
ascending order (`np.unique`). -/
def classesOf (ys : List ℤ) : List ℤ :=
  ys.dedup.insertionSort (fun a b => a ≤ b)

/-- Add one extra slot to each of the first `r` entries. -/
def addOnes : ℕ → List ℕ → List ℕ
  | _, [] => []
  | 0, xs => xs
  | r + 1, x :: xs => (x + 1) :: addOnes r xs

/-- Per-class test-set sizes: each class receives its proportional share
of the `ntest` slots rounded down, and the remaining slots go one each to
the first classes. This follows sklearn's stratified allocation (each
class's test count is its exact proportional share up to one sample, and
the counts add up to `ntest`); sklearn breaks the rounding ties through
the seeded RNG, which class order models here. -/
def testShare (counts : List ℕ) (ntest n : ℕ) : List ℕ :=
  let floors := counts.map (fun m => m * ntest / n)
  addOnes (ntest - floors.sum) floors

/-- The `random_state`-seeded shuffle of one stratum, modelled as a
deterministic seed-dependent permutation (a rotation by a seed-derived
offset): the claims depend only on the shuffle being a permutation fixed
by the seed, not on which permutation the Mersenne-Twister RNG yields. -/
def seededShuffle {β : Type} (seed : ℕ) (l : List β) : List β :=
  l.rotate (seed % (l.length + 1))

/-- The shuffled stratum of class `c`. -/
def stratumOf (seed : ℕ) (rows : List (List ℚ × ℤ)) (c : ℤ) :
    List (List ℚ × ℤ) :=
  seededShuffle seed (rows.filter (fun r => r.2 = c))

/-- Each stratify class paired with its test share. -/
def splitPairs (rows : List (List ℚ × ℤ)) (classes : List ℤ) :
    List (ℤ × ℕ) :=
  classes.zip (testShare
    (classes.map (fun c => (rows.filter (fun r => r.2 = c)).length))
    (nTestOf rows.length) rows.length)

/-- The test rows: each class's test share taken from its shuffled
stratum. -/
def takenPart (seed : ℕ) (rows : List (List ℚ × ℤ)) (classes : List ℤ) :
    List (List ℚ × ℤ) :=
  ((splitPairs rows classes).map
    (fun pr => (stratumOf seed rows pr.1).take pr.2)).flatten

/-- The train rows: the remainder of each class's shuffled stratum. -/
def droppedPart (seed : ℕ) (rows : List (List ℚ × ℤ)) (classes : List ℤ) :
    List (List ℚ × ℤ) :=
  ((splitPairs rows classes).map
    (fun pr => (stratumOf seed rows pr.1).drop pr.2)).flatten

/-- Embedding of sklearn's stratified shuffle split of the (feature row,
stratify label) records: group the records by their label, shuffle each
group with the seeded permutation, and take each group's test share as
test rows, the rest as train rows. -/
def stratifiedSplit (seed : ℕ) (rows : List (List ℚ × ℤ)) :
    List (List ℚ × ℤ) × List (List ℚ × ℤ) :=
  (droppedPart seed rows (classesOf (rows.map Prod.snd)),
   takenPart seed rows (classesOf (rows.map Prod.snd)))

/-- Embedding of `sklearn.model_selection.train_test_split(X, y,
test_size=0.3, random_state, stratify=y)`: the split RNG is seeded from
`random_state` when one is passed, otherwise from the ambient global RNG
state. -/
def train_test_split (ambientSeed : ℕ) (randomState : Option ℕ)
    (rows : List (List ℚ × ℤ)) :
    List (List ℚ × ℤ) × List (List ℚ × ℤ) :=
  stratifiedSplit (randomState.getD ambientSeed) rows

/-- The combined archive (`combined_attack_data.npz`): train and test
feature arrays and membership-flag arrays. -/
structure SplitData where
  XTrain : List (List ℚ)
  XTest : List (List ℚ)
  yTrain : List ℤ
  yTest : List ℤ
deriving DecidableEq, Repr

/-- `combine_attack_data` (lines 156-203 of
`cifar_models/extract_output.py`): concatenate the arrays of all loaded
archives, build the feature matrix `hstack(probabilities, labels)`, and
perform one stratified train/test split (`test_size=0.3`,
`random_state=42`, `stratify=all_members`) on the membership column. The
`ambientSeed` argument models the interpreter's ambient RNG state; the
call passes the fixed `random_state=42`. -/
def combine_attack_data (ambientSeed : ℕ) (archives : List Archive) :
    SplitData :=
  let rows := (combinedFeatures archives).zip (combinedMembers archives)
  let split := train_test_split ambientSeed (some 42) rows
  ⟨split.1.map Prod.fst, split.2.map Prod.fst,
   split.1.map Prod.snd, split.2.map Prod.snd⟩

/- ------------------------------------------------------------------ -/
/- Lemmas about the dedup pass                                         -/
/- ------------------------------------------------------------------ -/

theorem lookupMember_eq_none {seen : List (Prob × ℤ)} {p : Prob} :
    lookupMember seen p = none ↔ p ∉ seen.map Prod.fst := by
  induction seen with
  | nil => simp [lookupMember]
  | cons e rest ih =>
    by_cases h : e.1 = p
    · simp [lookupMember, h]
    · rw [lookupMember, if_neg h, ih, List.map_cons]
      constructor
      · intro hn hc
        rcases List.mem_cons.mp hc with hc | hc
        · exact h hc.symm
        · exact hn hc
      · intro hn hm
        exact hn (List.mem_cons_of_mem _ hm)

/-- The three filtered arrays are the projections of `keepFirsts`. -/
theorem dedupGo_eq_keepFirsts (seen : List (Prob × ℤ)) (es : List Entry) :
    (dedupGo seen es).probabilities
        = (keepFirsts (seen.map Prod.fst) es).map Entry.prob
    ∧ (dedupGo seen es).labels
        = (keepFirsts (seen.map Prod.fst) es).map Entry.label
    ∧ (dedupGo seen es).members
        = (keepFirsts (seen.map Prod.fst) es).map Entry.member := by
  induction es generalizing seen with
  | nil => simp [dedupGo, keepFirsts]
  | cons e rest ih =>
    cases hl : lookupMember seen e.prob with
    | none =>
      have hmem : e.prob ∉ seen.map Prod.fst := lookupMember_eq_none.mp hl
      have := ih ((e.prob, e.member) :: seen)
      simp only [List.map_cons] at this
      simp [dedupGo, hl, keepFirsts, hmem, this.1, this.2.1, this.2.2]
    | some m =>
      have hmem : e.prob ∈ seen.map Prod.fst := by
        by_contra hc
        rw [← lookupMember_eq_none] at hc
        rw [hl] at hc
        exact Option.noConfusion hc
      by_cases hm : m = e.member
      · simp [dedupGo, hl, hm, keepFirsts, hmem, ih seen]
      · simp [dedupGo, hl, hm, keepFirsts, hmem, ih seen]

/-- Zipping the projections of a record list gives back the list. -/
theorem zip3_map (es : List Entry) :
    zip3 (es.map Entry.prob) (es.map Entry.label) (es.map Entry.member) = es := by
  induction es with
  | nil => rfl
  | cons e rest ih => simp [zip3, ih]

/-- The records retained by the dedup pass are exactly `keepFirsts`. -/
theorem zip3_extractDedup (es : List Entry) :
    zip3 (extractDedup es).probabilities (extractDedup es).labels
      (extractDedup es).members = keepFirsts [] es := by
  have h := dedupGo_eq_keepFirsts [] es
  simp only [List.map_nil] at h
  rw [extractDedup, h.1, h.2.1, h.2.2, zip3_map]

theorem keepFirsts_sublist (seen : List Prob) (es : List Entry) :
    (keepFirsts seen es).Sublist es := by
  induction es generalizing seen with
  | nil => simp [keepFirsts]
  | cons e rest ih =>
    by_cases h : e.prob ∈ seen
    · simp only [keepFirsts, if_pos h]
      exact (ih seen).cons e
    · simp only [keepFirsts, if_neg h]
      exact (ih (e.prob :: seen)).cons₂ e

/-- Membership in the retained records. -/
theorem mem_keepFirsts_prob {seen : List Prob} {es : List Entry} {p : Prob} :
    p ∈ (keepFirsts seen es).map Entry.prob
      ↔ p ∉ seen ∧ p ∈ es.map Entry.prob := by
  induction es generalizing seen with
  | nil => simp [keepFirsts]
  | cons e rest ih =>
    by_cases h : e.prob ∈ seen
    · simp only [keepFirsts, if_pos h, ih, List.map_cons, List.mem_cons]
      constructor
      · rintro ⟨h1, h2⟩
        exact ⟨h1, Or.inr h2⟩
      · rintro ⟨h1, h2 | h2⟩
        · exact absurd (h2 ▸ h) h1
        · exact ⟨h1, h2⟩
    · rw [keepFirsts, if_neg h, List.map_cons]
      constructor
      · intro hp
        rcases List.mem_cons.mp hp with h1 | h1
        · exact ⟨h1 ▸ h, List.mem_cons.mpr (Or.inl h1)⟩
        · have ⟨h2, h3⟩ := ih.mp h1
          exact ⟨fun hc => h2 (List.mem_cons_of_mem _ hc),
                 List.mem_cons.mpr (Or.inr h3)⟩
      · rintro ⟨h1, h2⟩
        rcases List.mem_cons.mp h2 with h3 | h3
        · exact List.mem_cons.mpr (Or.inl h3)
        · by_cases hep : p = e.prob
          · exact List.mem_cons.mpr (Or.inl hep)
          · refine List.mem_cons.mpr (Or.inr (ih.mpr ⟨fun hc => ?_, h3⟩))
            rcases List.mem_cons.mp hc with hc | hc
            · exact hep hc
            · exact h1 hc

/-- The retained probability vectors are pairwise distinct and disjoint
from the already-seen ones. -/
theorem keepFirsts_nodup (seen : List Prob) (es : List Entry) :
    ((keepFirsts seen es).map Entry.prob).Nodup
    ∧ ∀ p ∈ (keepFirsts seen es).map Entry.prob, p ∉ seen := by
  induction es generalizing seen with
  | nil => simp [keepFirsts]
  | cons e rest ih =>
    by_cases h : e.prob ∈ seen
    · simpa [keepFirsts, if_pos h] using ih seen
    · have ihr := ih (e.prob :: seen)
      refine ⟨?_, ?_⟩
      · simp only [keepFirsts, if_neg h, List.map_cons, List.nodup_cons]
        refine ⟨fun hc => ?_, ihr.1⟩
        exact (ihr.2 _ hc) (List.mem_cons_self _ _)
      · intro p hp
        simp only [keepFirsts, if_neg h, List.map_cons, List.mem_cons] at hp
        rcases hp with hp | hp
        · exact hp ▸ h
        · exact fun hc => (ihr.2 _ hp) (List.mem_cons_of_mem _ hc)

/-- In a duplicate-free list every element occurs exactly once. -/
theorem countProb_eq_one {l : List Prob} {p : Prob} (hn : l.Nodup)
    (hp : p ∈ l) : countProb l p = 1 := by
  induction l with
  | nil => simp at hp
  | cons a l ih =>
    rw [List.nodup_cons] at hn
    rcases List.mem_cons.mp hp with rfl | hp
    · have hfil : l.filter (fun q => decide (q = p)) = [] := by
        rw [List.filter_eq_nil_iff]
        intro b hb
        simp only [decide_eq_true_eq]
        intro hc
        exact hn.1 (hc ▸ hb)
      simp [countProb, hfil]
    · have hne : a ≠ p := fun hc => hn.1 (hc ▸ hp)
      have hrec := ih hn.2 hp
      simp only [countProb, List.filter] at hrec ⊢
      rw [show (decide (a = p)) = false by simp [hne]]
      exact hrec

/-- A record retained by `keepFirsts` is the FIRST occurrence of its
probability vector in the input (in Python terms, `find` on the input
returns exactly this record). -/
theorem keepFirsts_first_occurrence {seen : List Prob} {es : List Entry}
    {e : Entry} (he : e ∈ keepFirsts seen es) :
    e.prob ∉ seen ∧ es.find? (fun x => x.prob == e.prob) = some e := by
  induction es generalizing seen with
  | nil => simp [keepFirsts] at he
  | cons e₀ rest ih =>
    by_cases h : e₀.prob ∈ seen
    · rw [keepFirsts, if_pos h] at he
      have ⟨h1, h2⟩ := ih he
      have hne : (e₀.prob == e.prob) = false := by
        simp only [beq_eq_false_iff_ne, ne_eq]
        intro hc
        exact h1 (hc ▸ h)
      rw [List.find?_cons, hne]
      exact ⟨h1, h2⟩
    · rw [keepFirsts, if_neg h] at he
      rcases List.mem_cons.mp he with he | he
      · subst he
        refine ⟨h, ?_⟩
        rw [List.find?_cons]
        simp
      · have ⟨h1, h2⟩ := ih he
        have hns : e.prob ∉ seen := fun hc => h1 (List.mem_cons_of_mem _ hc)
        have hne : (e₀.prob == e.prob) = false := by
          simp only [beq_eq_false_iff_ne, ne_eq]
          intro hc
          exact h1 (hc ▸ List.mem_cons_self _ _)
        rw [List.find?_cons, hne]
        exact ⟨hns, h2⟩

/-- Splitting the dedup loop at any point: the outputs of the two halves
concatenate, the second half starting from the dict state reached by the
first. -/
theorem dedupGo_append (seen : List (Prob × ℤ)) (xs ys : List Entry) :
    dedupGo seen (xs ++ ys)
      = ⟨(dedupGo seen xs).probabilities
            ++ (dedupGo (seenAfter seen xs) ys).probabilities,
         (dedupGo seen xs).labels ++ (dedupGo (seenAfter seen xs) ys).labels,
         (dedupGo seen xs).members ++ (dedupGo (seenAfter seen xs) ys).members,
         (dedupGo seen xs).conflictLog
            ++ (dedupGo (seenAfter seen xs) ys).conflictLog⟩ := by
  induction xs generalizing seen with
  | nil => simp [dedupGo, seenAfter]
  | cons e rest ih =>
    cases hl : lookupMember seen e.prob with
    | none => simp [List.cons_append, dedupGo, hl, seenAfter, ih]
    | some m =>
      by_cases hm : m = e.member
      · simp [List.cons_append, dedupGo, hl, seenAfter, hm, ih]
      · simp [List.cons_append, dedupGo, hl, seenAfter, hm, ih]

theorem seenAfter_append (seen : List (Prob × ℤ)) (xs ys : List Entry) :
    seenAfter seen (xs ++ ys) = seenAfter (seenAfter seen xs) ys := by
  induction xs generalizing seen with
  | nil => rfl
  | cons e rest ih =>
    cases hl : lookupMember seen e.prob with
    | none => simp [seenAfter, hl, ih]
    | some m => simp [seenAfter, hl, ih]

/-- Processing records whose probability vectors differ from `p` does not
change what the dict stores for `p`. -/
theorem lookupMember_seenAfter {p : Prob} (seen : List (Prob × ℤ))
    (xs : List Entry) (h : ∀ e ∈ xs, e.prob ≠ p) :
    lookupMember (seenAfter seen xs) p = lookupMember seen p := by
  induction xs generalizing seen with
  | nil => rfl
  | cons e rest ih =>
    have hne : e.prob ≠ p := h e (List.mem_cons_self _ _)
    have htail : ∀ e' ∈ rest, e'.prob ≠ p :=
      fun e' he' => h e' (List.mem_cons_of_mem _ he')
    cases hl : lookupMember seen e.prob with
    | none =>
      simp only [seenAfter, hl]
      rw [ih _ htail, lookupMember, if_neg hne]
    | some m =>
      simp only [seenAfter, hl]
      exact ih _ htail

/-- Once the dict stores membership `m` for vector `p`, every later record
with vector `p` and a different membership produces a conflict message. -/
theorem conflict_mem_of_lookup {p : Prob} {m : ℤ} (seen : List (Prob × ℤ))
    (es : List Entry) (hlk : lookupMember seen p = some m) :
    ∀ e₁ ∈ es, e₁.prob = p → e₁.member ≠ m →
      (p, m, e₁.member) ∈ (dedupGo seen es).conflictLog := by
  induction es generalizing seen with
  | nil => intro e₁ h; simp at h
  | cons e rest ih =>
    intro e₁ he₁ hp hm
    cases hl : lookupMember seen e.prob with
    | none =>
      have hep : e.prob ≠ p := by
        intro hc
        rw [hc, hlk] at hl
        exact Option.noConfusion hl
      rcases List.mem_cons.mp he₁ with rfl | he₁
      · exact absurd hp hep
      · have hlk2 : lookupMember ((e.prob, e.member) :: seen) p = some m := by
          rw [lookupMember, if_neg hep]
          exact hlk
        have hrec := ih _ hlk2 e₁ he₁ hp hm
        simpa [dedupGo, hl] using hrec
    | some m₂ =>
      rcases List.mem_cons.mp he₁ with rfl | he₁
      · have hm₂ : m₂ = m := by
          rw [hp, hlk] at hl
          exact (Option.some.inj hl).symm
        subst hm₂
        have hne : m₂ ≠ e₁.member := Ne.symm hm
        simp [dedupGo, hl, hlk, hne, hp]
      · by_cases hme : m₂ = e.member
        · have hrec := ih seen hlk e₁ he₁ hp hm
          simpa [dedupGo, hl, hme] using hrec
        · have hrec := ih seen hlk e₁ he₁ hp hm
          simp [dedupGo, hl, hme]
          exact Or.inr hrec

/-- If every record with vector `p` carries the same membership flag as the
one the dict stores (or will store), no conflict for `p` is ever logged. -/
theorem no_conflict_of_agree {p : Prob} {m₀ : ℤ} (seen : List (Prob × ℤ))
    (es : List Entry)
    (hseen : lookupMember seen p = none ∨ lookupMember seen p = some m₀)
    (hall : ∀ e ∈ es, e.prob = p → e.member = m₀) :
    ∀ m m', (p, m, m') ∉ (dedupGo seen es).conflictLog := by
  induction es generalizing seen with
  | nil => intro m m'; simp [dedupGo]
  | cons e rest ih =>
    intro m m' hc
    have htail : ∀ e' ∈ rest, e'.prob = p → e'.member = m₀ :=
      fun e' he' => hall e' (List.mem_cons_of_mem _ he')
    cases hl : lookupMember seen e.prob with
    | none =>
      have hinv : lookupMember ((e.prob, e.member) :: seen) p = none
          ∨ lookupMember ((e.prob, e.member) :: seen) p = some m₀ := by
        by_cases hep : e.prob = p
        · right
          rw [lookupMember, if_pos hep]
          exact congrArg some (hall e (List.mem_cons_self _ _) hep)
        · rw [lookupMember, if_neg hep]
          exact hseen
      rw [show dedupGo seen (e :: rest)
            = ⟨e.prob :: (dedupGo ((e.prob, e.member) :: seen) rest).probabilities,
               e.label :: (dedupGo ((e.prob, e.member) :: seen) rest).labels,
               e.member :: (dedupGo ((e.prob, e.member) :: seen) rest).members,
               (dedupGo ((e.prob, e.member) :: seen) rest).conflictLog⟩
          from by simp [dedupGo, hl]] at hc
      exact ih _ hinv htail m m' hc
    | some m₂ =>
      by_cases hme : m₂ = e.member
      · rw [show dedupGo seen (e :: rest) = dedupGo seen rest
            from by simp [dedupGo, hl, hme]] at hc
        exact ih seen hseen htail m m' hc
      · rw [show dedupGo seen (e :: rest)
            = ⟨(dedupGo seen rest).probabilities, (dedupGo seen rest).labels,
               (dedupGo seen rest).members,
               (e.prob, m₂, e.member) :: (dedupGo seen rest).conflictLog⟩
            from by simp [dedupGo, hl, hme]] at hc
        rcases List.mem_cons.mp hc with hc | hc
        · have hep : e.prob = p := (Prod.mk.injEq _ _ _ _ ▸ hc.symm).1
          have hm₂ : lookupMember seen p = some m₂ := hep ▸ hl
          rcases hseen with hs | hs
          · rw [hs] at hm₂
            exact Option.noConfusion hm₂
          · rw [hs] at hm₂
            have h4 : m₀ = m₂ := Option.some.inj hm₂
            have h5 : e.member = m₀ := hall e (List.mem_cons_self _ _) hep
            exact hme (h4.symm.trans h5.symm)
        · exact ih seen hseen htail m m' hc

/-- On an input whose probability vectors are pairwise distinct (and
unseen), the dedup pass keeps everything and logs nothing. -/
theorem dedupGo_of_nodup (seen : List (Prob × ℤ)) (es : List Entry)
    (h1 : (es.map Entry.prob).Nodup)
    (h2 : ∀ e ∈ es, e.prob ∉ seen.map Prod.fst) :
    dedupGo seen es
      = ⟨es.map Entry.prob, es.map Entry.label, es.map Entry.member, []⟩ := by
  induction es generalizing seen with
  | nil => rfl
  | cons e rest ih =>
    have hl : lookupMember seen e.prob = none :=
      lookupMember_eq_none.mpr (h2 e (List.mem_cons_self _ _))
    rw [List.map_cons, List.nodup_cons] at h1
    have h2' : ∀ e' ∈ rest,
        e'.prob ∉ ((e.prob, e.member) :: seen).map Prod.fst := by
      intro e' he' hc
      rcases List.mem_cons.mp hc with hc | hc
      · have hc2 : e'.prob = e.prob := hc
        exact h1.1 (hc2 ▸ List.mem_map_of_mem Entry.prob he')
      · exact h2 e' (List.mem_cons_of_mem _ he') hc
    simp [dedupGo, hl, ih _ h1.2 h2']

/-- `find?` on a list whose first record with vector `p` is `e₀` returns
`e₀`. -/
theorem find?_first_occ {p : Prob} (pre : List Entry) (e₀ : Entry)
    (tail : List Entry) (hpre : ∀ e ∈ pre, e.prob ≠ p) (h₀ : e₀.prob = p) :
    (pre ++ e₀ :: tail).find? (fun x => x.prob == p) = some e₀ := by
  induction pre with
  | nil =>
    rw [List.nil_append]
    exact List.find?_cons_of_pos _ (by simp [h₀])
  | cons e pre ih =>
    have hne : e.prob ≠ p := hpre e (List.mem_cons_self _ _)
    rw [List.cons_append, List.find?_cons_of_neg _ (by simp [hne])]
    exact ih (fun e' he' => hpre e' (List.mem_cons_of_mem _ he'))

/- ------------------------------------------------------------------ -/
/- Lemmas about get_outputs and the main loop                          -/
/- ------------------------------------------------------------------ -/

/-- `get_outputs` either hits the assertion (exactly when a batch holds a
vector whose sum is not close to 1, with the assertion's message) or
returns successfully (exactly when every vector of every batch passes). -/
theorem get_outputs_cases {α : Type} (f : α → Prob) (loader : List (Batch α))
    (ml : ℤ) :
    (get_outputs f loader ml
          = Except.error "Probabilities do not sum up to 1!"
        ∧ ∃ b ∈ loader, ∃ s ∈ b, sumsCloseToOne (f s.1) = false)
    ∨ ((∃ res, get_outputs f loader ml = Except.ok res)
        ∧ ∀ b ∈ loader, ∀ s ∈ b, sumsCloseToOne (f s.1) = true) := by
  induction loader with
  | nil => exact Or.inr ⟨⟨([], [], []), rfl⟩, by simp⟩
  | cons batch rest ih =>
    cases hb : batch.all (fun s => sumsCloseToOne (f s.1)) with
    | false =>
      left
      refine ⟨by simp [get_outputs, hb], ?_⟩
      obtain ⟨s, hs, hsf⟩ := List.all_eq_false.mp hb
      exact ⟨batch, List.mem_cons_self _ _, s, hs,
        Bool.eq_false_iff.mpr hsf⟩
    | true =>
      rcases ih with ⟨herr, b, hbmem, hs⟩ | ⟨⟨res, hok⟩, hall⟩
      · left
        refine ⟨by simp [get_outputs, hb, herr], ?_⟩
        exact ⟨b, List.mem_cons_of_mem _ hbmem, hs⟩
      · right
        obtain ⟨ps, ls, ms⟩ := res
        refine ⟨⟨(batch.map (fun s => f s.1) ++ ps,
            batch.map (fun s => s.2) ++ ls,
            List.replicate batch.length ml ++ ms),
          by simp [get_outputs, hb, hok]⟩, ?_⟩
        intro b hbmem s hsmem
        rcases List.mem_cons.mp hbmem with rfl | hbmem
        · exact List.all_eq_true.mp hb s hsmem
        · exact hall b hbmem s hsmem

/-- The membership column returned by `get_outputs` is one copy of
`member_label` per sample. -/
theorem get_outputs_members {α : Type} (f : α → Prob)
    (loader : List (Batch α)) (ml : ℤ) (ps : List Prob) (ls ms : List ℤ)
    (h : get_outputs f loader ml = Except.ok (ps, ls, ms)) :
    ms = List.replicate (loaderSize loader) ml := by
  induction loader generalizing ps ls ms with
  | nil =>
    simp only [get_outputs, Except.ok.injEq, Prod.mk.injEq] at h
    rw [← h.2.2]
    rfl
  | cons batch rest ih =>
    cases hb : batch.all (fun s => sumsCloseToOne (f s.1)) with
    | false => simp [get_outputs, hb] at h
    | true =>
      cases hr : get_outputs f rest ml with
      | error e => simp [get_outputs, hb, hr] at h
      | ok res =>
        obtain ⟨ps₁, ls₁, ms₁⟩ := res
        simp only [get_outputs, hb, if_true, hr, Except.ok.injEq,
          Prod.mk.injEq] at h
        rw [← h.2.2, ih ps₁ ls₁ ms₁ hr]
        have hsz : loaderSize (batch :: rest)
            = batch.length + loaderSize rest := by
          simp [loaderSize]
        rw [hsz, List.replicate_add]

/- ------------------------------------------------------------------ -/
/- Lemmas about the stratified split                                   -/
/- ------------------------------------------------------------------ -/

theorem countMem_append (l₁ l₂ : List ℤ) (c : ℤ) :
    countMem (l₁ ++ l₂) c = countMem l₁ c + countMem l₂ c := by
  simp [countMem, List.filter_append]

theorem countMem_eq_length {l : List ℤ} {c : ℤ} (h : ∀ x ∈ l, x = c) :
    countMem l c = l.length := by
  unfold countMem
  rw [List.filter_eq_self.mpr (fun a ha => by simp [h a ha])]

theorem countMem_eq_zero {l : List ℤ} {c : ℤ} (h : ∀ x ∈ l, x ≠ c) :
    countMem l c = 0 := by
  unfold countMem
  rw [List.filter_eq_nil_iff.mpr (fun a ha => by simp [h a ha])]
  rfl

theorem countMem_map_snd (l : List (List ℚ × ℤ)) (c : ℤ) :
    countMem (l.map Prod.snd) c = (l.filter (fun r => r.2 = c)).length := by
  induction l with
  | nil => rfl
  | cons x l ih =>
    simp only [countMem, List.map_cons, List.filter_cons] at ih ⊢
    by_cases h : x.2 = c
    · simp [h, ih]
    · simp [h, ih]

theorem addOnes_zero (xs : List ℕ) : addOnes 0 xs = xs := by
  cases xs <;> rfl

theorem length_addOnes (r : ℕ) (xs : List ℕ) :
    (addOnes r xs).length = xs.length := by
  induction xs generalizing r with
  | nil => cases r <;> rfl
  | cons x xs ih =>
    cases r with
    | zero => rfl
    | succ r => simp [addOnes, ih r]

theorem sum_addOnes (r : ℕ) (xs : List ℕ) (h : r ≤ xs.length) :
    (addOnes r xs).sum = xs.sum + r := by
  induction xs generalizing r with
  | nil =>
    have : r = 0 := Nat.le_zero.mp (by simpa using h)
    simp [this, addOnes_zero]
  | cons x xs ih =>
    cases r with
    | zero => simp [addOnes_zero]
    | succ r =>
      have h2 : r ≤ xs.length := by simpa using h
      simp only [addOnes, List.sum_cons, ih r h2]
      omega

/-- Which test shares the zipped allocation can produce: the floor, or the
floor plus one when remainder slots exist. -/
theorem zip_addOnes_mem (f : ℤ → ℕ) (cs : List ℤ) :
    ∀ (r : ℕ) (c : ℤ) (t : ℕ),
      (c, t) ∈ cs.zip (addOnes r (cs.map f)) →
      t = f c ∨ (t = f c + 1 ∧ 1 ≤ r) := by
  induction cs with
  | nil =>
    intro r c t h
    simp at h
  | cons c₀ cs ih =>
    intro r c t h
    cases r with
    | zero =>
      rw [List.map_cons, addOnes_zero, List.zip_cons_cons] at h
      rcases List.mem_cons.mp h with h | h
      · rw [Prod.mk.injEq] at h
        left
        rw [h.2, h.1]
      · have h2 := ih 0 c t (by rw [addOnes_zero]; exact h)
        rcases h2 with h2 | ⟨h2, h3⟩
        · exact Or.inl h2
        · omega
    | succ r =>
      simp only [List.map_cons, addOnes, List.zip_cons_cons] at h
      rcases List.mem_cons.mp h with h | h
      · rw [Prod.mk.injEq] at h
        right
        exact ⟨by rw [h.2, h.1], by omega⟩
      · rcases ih r c t h with h2 | ⟨h2, h3⟩
        · exact Or.inl h2
        · exact Or.inr ⟨h2, by omega⟩

theorem mem_zip_of_mem_left (cs : List ℤ) :
    ∀ (ts : List ℕ), cs.length = ts.length → ∀ c ∈ cs,
      ∃ t, (c, t) ∈ cs.zip ts := by
  induction cs with
  | nil =>
    intro ts _ c hc
    simp at hc
  | cons c₀ cs ih =>
    intro ts hlen c hc
    cases ts with
    | nil => simp at hlen
    | cons t₀ ts =>
      rcases List.mem_cons.mp hc with rfl | hc
      · exact ⟨t₀, by simp⟩
      · obtain ⟨t, ht⟩ := ih ts (by simpa using hlen) c hc
        exact ⟨t, List.mem_cons_of_mem _ ht⟩

theorem append_four_perm {α : Type} (x y D T : List α) :
    ((x ++ D) ++ (y ++ T)).Perm ((y ++ x) ++ (D ++ T)) := by
  rw [← Multiset.coe_eq_coe]
  simp only [← Multiset.coe_add]
  abel

/-- Splitting every group into its dropped and taken part and
concatenating gives back all groups, up to order. -/
theorem split_parts_perm (g : ℤ → List (List ℚ × ℤ))
    (pairs : List (ℤ × ℕ)) :
    ((pairs.map (fun pr => (g pr.1).drop pr.2)).flatten
      ++ (pairs.map (fun pr => (g pr.1).take pr.2)).flatten).Perm
      ((pairs.map (fun pr => g pr.1)).flatten) := by
  induction pairs with
  | nil => simp
  | cons pr pairs ih =>
    simp only [List.map_cons, List.flatten_cons]
    refine (append_four_perm _ _ _ _).trans ?_
    rw [List.take_append_drop]
    exact List.Perm.append_left _ ih

theorem flatten_perm_of_forall (g h : ℤ → List (List ℚ × ℤ))
    (cs : List ℤ) (hp : ∀ c ∈ cs, (g c).Perm (h c)) :
    ((cs.map g).flatten).Perm ((cs.map h).flatten) := by
  induction cs with
  | nil => simp
  | cons c cs ih =>
    simp only [List.map_cons, List.flatten_cons]
    exact (hp c (List.mem_cons_self _ _)).append
      (ih (fun c₁ hc => hp c₁ (List.mem_cons_of_mem _ hc)))

/-- Partitioning the rows by a duplicate-free covering class list and
concatenating the groups gives back the rows, up to order. -/
theorem flatten_filter_perm (cs : List ℤ) :
    ∀ (rows : List (List ℚ × ℤ)), cs.Nodup → (∀ r ∈ rows, r.2 ∈ cs) →
    ((cs.map (fun c => rows.filter (fun r => r.2 = c))).flatten).Perm rows := by
  induction cs with
  | nil =>
    intro rows _ hcov
    cases rows with
    | nil => simp
    | cons r rows => exact absurd (hcov r (List.mem_cons_self _ _)) (by simp)
  | cons c cs ih =>
    intro rows hnd hcov
    rw [List.nodup_cons] at hnd
    simp only [List.map_cons, List.flatten_cons]
    have hsub : ∀ c₁ ∈ cs, rows.filter (fun r => r.2 = c₁)
        = (rows.filter (fun r => !(r.2 = c))).filter (fun r => r.2 = c₁) := by
      intro c₁ hc₁
      rw [List.filter_filter]
      apply List.filter_congr
      intro r _
      by_cases hr : r.2 = c₁
      · have hne : ¬c₁ = c := fun hc => hnd.1 (hc ▸ hc₁)
        simp [hr, hne]
      · simp [hr]
    have hmap : cs.map (fun c₁ => rows.filter (fun r => r.2 = c₁))
        = cs.map (fun c₁ =>
            (rows.filter (fun r => !(r.2 = c))).filter (fun r => r.2 = c₁)) :=
      List.map_congr_left hsub
    rw [hmap]
    have hcov2 : ∀ r ∈ rows.filter (fun r => !(r.2 = c)), r.2 ∈ cs := by
      intro r hr
      have hmem := List.mem_of_mem_filter hr
      have hprop := List.of_mem_filter hr
      rcases List.mem_cons.mp (hcov r hmem) with hc | hc
      · simp [hc] at hprop
      · exact hc
    have := ih (rows.filter (fun r => !(r.2 = c))) hnd.2 hcov2
    exact (List.Perm.append_left _ this).trans
      (List.filter_append_perm (fun r => r.2 = c) rows)

theorem div_add_div_le (a b n : ℕ) : a / n + b / n ≤ (a + b) / n := by
  cases Nat.eq_zero_or_pos n with
  | inl h => simp [h]
  | inr h =>
    rw [Nat.le_div_iff_mul_le h, Nat.add_mul]
    exact Nat.add_le_add (Nat.div_mul_le_self a n) (Nat.div_mul_le_self b n)

theorem sum_map_div_le (xs : List ℕ) (n : ℕ) :
    (xs.map (fun a => a / n)).sum ≤ xs.sum / n := by
  induction xs with
  | nil => simp
  | cons x xs ih =>
    simp only [List.map_cons, List.sum_cons]
    exact le_trans (Nat.add_le_add_left ih _) (div_add_div_le x xs.sum n)

theorem sum_div_mod_identity (xs : List ℕ) (n : ℕ) :
    xs.sum = n * (xs.map (fun a => a / n)).sum
      + (xs.map (fun a => a % n)).sum := by
  induction xs with
  | nil => simp
  | cons x xs ih =>
    simp only [List.map_cons, List.sum_cons, Nat.mul_add]
    have hx := Nat.div_add_mod x n
    linarith

theorem nTestOf_le (n : ℕ) : nTestOf n ≤ n := by
  unfold nTestOf
  omega

theorem length_stratumOf (seed : ℕ) (rows : List (List ℚ × ℤ)) (c : ℤ) :
    (stratumOf seed rows c).length
      = (rows.filter (fun x => x.2 = c)).length := by
  simp [stratumOf, seededShuffle, List.length_rotate]

theorem stratumOf_label (seed : ℕ) (rows : List (List ℚ × ℤ)) (c : ℤ) :
    ∀ x ∈ stratumOf seed rows c, x.2 = c := by
  intro x hx
  have hmem : x ∈ rows.filter (fun y => y.2 = c) := by
    rw [stratumOf, seededShuffle] at hx
    exact List.mem_rotate.mp hx
  have := List.of_mem_filter hmem
  simpa using this

theorem stratumOf_perm (seed : ℕ) (rows : List (List ℚ × ℤ)) (c : ℤ) :
    (stratumOf seed rows c).Perm (rows.filter (fun x => x.2 = c)) :=
  List.rotate_perm _ _

/-- Per-class membership counts of the flattened taken and dropped parts
of the shuffled strata. -/
theorem countMem_flatten_strata (seed : ℕ) (rows : List (List ℚ × ℤ)) :
    ∀ (pairs : List (ℤ × ℕ)), (pairs.map Prod.fst).Nodup →
    (∀ pr ∈ pairs, pr.2 ≤ (rows.filter (fun x => x.2 = pr.1)).length) →
    (∀ c t, (c, t) ∈ pairs →
      countMem (((pairs.map (fun pr =>
          (stratumOf seed rows pr.1).take pr.2)).flatten).map Prod.snd) c = t
      ∧ countMem (((pairs.map (fun pr =>
          (stratumOf seed rows pr.1).drop pr.2)).flatten).map Prod.snd) c
        = (rows.filter (fun x => x.2 = c)).length - t)
    ∧ (∀ c, c ∉ pairs.map Prod.fst →
      countMem (((pairs.map (fun pr =>
          (stratumOf seed rows pr.1).take pr.2)).flatten).map Prod.snd) c = 0
      ∧ countMem (((pairs.map (fun pr =>
          (stratumOf seed rows pr.1).drop pr.2)).flatten).map Prod.snd) c
          = 0) := by
  intro pairs
  induction pairs with
  | nil =>
    intro _ _
    constructor
    · intro c t h
      simp at h
    · intro c _
      constructor <;> rfl
  | cons pr₀ pairs ih =>
    intro hnd hle
    obtain ⟨c₀, t₀⟩ := pr₀
    rw [List.map_cons, List.nodup_cons] at hnd
    have hle₀ := hle (c₀, t₀) (List.mem_cons_self _ _)
    have hlerest : ∀ pr ∈ pairs, pr.2
        ≤ (rows.filter (fun x => x.2 = pr.1)).length :=
      fun pr hpr => hle pr (List.mem_cons_of_mem _ hpr)
    have ihr := ih hnd.2 hlerest
    have htklen : ((stratumOf seed rows c₀).take t₀).length = t₀ := by
      rw [List.length_take, length_stratumOf]
      exact min_eq_left hle₀
    have hdplen : ((stratumOf seed rows c₀).drop t₀).length
        = (rows.filter (fun x => x.2 = c₀)).length - t₀ := by
      rw [List.length_drop, length_stratumOf]
    have htklab : ∀ x ∈ (stratumOf seed rows c₀).take t₀, x.2 = c₀ :=
      fun x hx => stratumOf_label seed rows c₀ x
        ((List.take_sublist _ _).subset hx)
    have hdplab : ∀ x ∈ (stratumOf seed rows c₀).drop t₀, x.2 = c₀ :=
      fun x hx => stratumOf_label seed rows c₀ x
        ((List.drop_sublist _ _).subset hx)
    constructor
    · intro c t hmem
      rcases List.mem_cons.mp hmem with hmem | hmem
      · rw [Prod.mk.injEq] at hmem
        obtain ⟨hc, ht⟩ := hmem
        subst hc
        subst ht
        have hrest := (ihr.2 c hnd.1)
        have halltk : ∀ x ∈ ((stratumOf seed rows c).take t).map Prod.snd,
            x = c := by
          intro x hx
          obtain ⟨y, hy, rfl⟩ := List.mem_map.mp hx
          exact htklab y hy
        have halldp : ∀ x ∈ ((stratumOf seed rows c).drop t).map Prod.snd,
            x = c := by
          intro x hx
          obtain ⟨y, hy, rfl⟩ := List.mem_map.mp hx
          exact hdplab y hy
        constructor
        · simp only [List.map_cons, List.flatten_cons, List.map_append,
            countMem_append]
          rw [countMem_eq_length halltk, List.length_map, htklen, hrest.1]
          omega
        · simp only [List.map_cons, List.flatten_cons, List.map_append,
            countMem_append]
          rw [countMem_eq_length halldp, List.length_map, hdplen, hrest.2]
          omega
      · have hc : c ≠ c₀ := by
          intro hc
          have hcm : c ∈ pairs.map Prod.fst :=
            List.mem_map_of_mem Prod.fst hmem
          exact hnd.1 (hc ▸ hcm)
        have hrest := (ihr.1 c t hmem)
        have hztk : ∀ x ∈ ((stratumOf seed rows c₀).take t₀).map Prod.snd,
            x ≠ c := by
          intro x hx
          obtain ⟨y, hy, rfl⟩ := List.mem_map.mp hx
          rw [htklab y hy]
          exact Ne.symm hc
        have hzdp : ∀ x ∈ ((stratumOf seed rows c₀).drop t₀).map Prod.snd,
            x ≠ c := by
          intro x hx
          obtain ⟨y, hy, rfl⟩ := List.mem_map.mp hx
          rw [hdplab y hy]
          exact Ne.symm hc
        constructor
        · simp only [List.map_cons, List.flatten_cons, List.map_append,
            countMem_append]
          rw [countMem_eq_zero hztk, hrest.1]
          omega
        · simp only [List.map_cons, List.flatten_cons, List.map_append,
            countMem_append]
          rw [countMem_eq_zero hzdp, hrest.2]
          omega
    · intro c hcnot
      have hc : c ≠ c₀ := by
        intro hc
        exact hcnot (by rw [List.map_cons, hc]; exact List.mem_cons_self _ _)
      have hcnotrest : c ∉ pairs.map Prod.fst :=
        fun hcm => hcnot (by rw [List.map_cons]; exact List.mem_cons_of_mem _ hcm)
      have hrest := ihr.2 c hcnotrest
      have hztk : ∀ x ∈ ((stratumOf seed rows c₀).take t₀).map Prod.snd,
          x ≠ c := by
        intro x hx
        obtain ⟨y, hy, rfl⟩ := List.mem_map.mp hx
        rw [htklab y hy]
        exact Ne.symm hc
      have hzdp : ∀ x ∈ ((stratumOf seed rows c₀).drop t₀).map Prod.snd,
          x ≠ c := by
        intro x hx
        obtain ⟨y, hy, rfl⟩ := List.mem_map.mp hx
        rw [hdplab y hy]
        exact Ne.symm hc
      constructor
      · simp only [List.map_cons, List.flatten_cons, List.map_append,
          countMem_append]
        rw [countMem_eq_zero hztk, hrest.1]
      · simp only [List.map_cons, List.flatten_cons, List.map_append,
          countMem_append]
        rw [countMem_eq_zero hzdp, hrest.2]


theorem sum_sub_pairs (g : ℤ → ℕ) (pairs : List (ℤ × ℕ))
    (h : ∀ pr ∈ pairs, pr.2 ≤ g pr.1) :
    (pairs.map Prod.snd).sum ≤ (pairs.map (fun pr => g pr.1)).sum
    ∧ (pairs.map (fun pr => g pr.1 - pr.2)).sum
        = (pairs.map (fun pr => g pr.1)).sum - (pairs.map Prod.snd).sum := by
  induction pairs with
  | nil => simp
  | cons pr pairs ih =>
    have h0 := h pr (List.mem_cons_self _ _)
    have ihr := ih (fun q hq => h q (List.mem_cons_of_mem _ hq))
    simp only [List.map_cons, List.sum_cons]
    omega

/-- The proportional allocation facts: the per-class test shares add up to
`ceil(3n/10)`, and each class's share stays within one sample of its exact
proportional share. -/
theorem alloc_facts (g : ℤ → ℕ) (classes : List ℤ) (n : ℕ) (hn : 0 < n)
    (hsum : (classes.map g).sum = n) (hpos : ∀ c ∈ classes, 1 ≤ g c) :
    ((addOnes (nTestOf n - (classes.map (fun c => g c * nTestOf n / n)).sum)
        (classes.map (fun c => g c * nTestOf n / n))).sum = nTestOf n)
    ∧ (∀ c t, (c, t) ∈ classes.zip (addOnes (nTestOf n
          - (classes.map (fun c => g c * nTestOf n / n)).sum)
          (classes.map (fun c => g c * nTestOf n / n))) →
        t ≤ g c ∧ t * n ≤ g c * nTestOf n + n
          ∧ g c * nTestOf n ≤ t * n + n) := by
  have hntle : nTestOf n ≤ n := nTestOf_le n
  have hmm1 : (classes.map (fun c => g c * nTestOf n / n))
      = (classes.map (fun c => g c * nTestOf n)).map (fun a => a / n) :=
    (List.map_map (fun a => a / n) (fun c => g c * nTestOf n) classes).symm
  have hmm2 : (classes.map (fun c => g c * nTestOf n)).sum
      = n * nTestOf n := by
    have h4 := List.sum_map_mul_right classes g (nTestOf n)
    rw [h4, hsum]
  have hflsum_le : (classes.map (fun c => g c * nTestOf n / n)).sum
      ≤ nTestOf n := by
    rw [hmm1]
    refine le_trans (sum_map_div_le _ n) ?_
    rw [hmm2, Nat.mul_div_cancel_left _ hn]
  have hres_id : n * nTestOf n
      = n * (classes.map (fun c => g c * nTestOf n / n)).sum
        + ((classes.map (fun c => g c * nTestOf n)).map
            (fun a => a % n)).sum := by
    have h5 := sum_div_mod_identity (classes.map (fun c => g c * nTestOf n)) n
    rw [hmm2, ← hmm1] at h5
    exact h5
  have hres_le : ((classes.map (fun c => g c * nTestOf n)).map
      (fun a => a % n)).sum ≤ classes.length * (n - 1) := by
    have h6 : ∀ y ∈ (classes.map (fun c => g c * nTestOf n)).map
        (fun a => a % n), y ≤ n - 1 := by
      intro y hy
      obtain ⟨a, _, rfl⟩ := List.mem_map.mp hy
      exact Nat.le_pred_of_lt (Nat.mod_lt a hn)
    have h7 := List.sum_le_card_nsmul _ _ h6
    rw [smul_eq_mul] at h7
    simpa using h7
  have hrle : nTestOf n - (classes.map (fun c => g c * nTestOf n / n)).sum
      ≤ classes.length := by
    by_contra hcon
    push_neg at hcon
    have h8 : n * (classes.length + 1)
        ≤ n * (nTestOf n
          - (classes.map (fun c => g c * nTestOf n / n)).sum) :=
      Nat.mul_le_mul_left n hcon
    have h9 : n * (nTestOf n
          - (classes.map (fun c => g c * nTestOf n / n)).sum)
        + n * (classes.map (fun c => g c * nTestOf n / n)).sum
        = n * nTestOf n := by
      rw [← Nat.mul_add]
      congr 1
      omega
    have h10 : classes.length * (n - 1) + classes.length
        = classes.length * n := by
      have h11 : (n - 1) + 1 = n := by omega
      calc classes.length * (n - 1) + classes.length
          = classes.length * ((n - 1) + 1) := by ring
        _ = classes.length * n := by rw [h11]
    have h12 : n * (classes.length + 1) = n * classes.length + n := by ring
    have h13 : n * classes.length = classes.length * n := by ring
    linarith [hres_id, hres_le, h8, h9, h10, h12, h13, hn]
  constructor
  · rw [sum_addOnes _ _ (by simpa using hrle)]
    omega
  · intro c t hmem
    have hcls : c ∈ classes := (List.of_mem_zip hmem).1
    have hm1 : 1 ≤ g c := hpos c hcls
    have hdmod := Nat.div_add_mod (g c * nTestOf n) n
    have hmlt := Nat.mod_lt (g c * nTestOf n) hn
    have hdm : g c * nTestOf n / n * n ≤ g c * nTestOf n :=
      Nat.div_mul_le_self _ _
    have hup : g c * nTestOf n < (g c * nTestOf n / n) * n + n := by
      have hcomm : (g c * nTestOf n / n) * n
          = n * (g c * nTestOf n / n) := by ring
      omega
    rcases zip_addOnes_mem (fun c => g c * nTestOf n / n) classes _ c t hmem
      with ht | ⟨ht, hr1⟩
    · subst ht
      refine ⟨?_, ?_, ?_⟩
      · calc g c * nTestOf n / n ≤ g c * n / n :=
            Nat.div_le_div_right (Nat.mul_le_mul_left _ hntle)
          _ = g c := Nat.mul_div_cancel _ hn
      · exact le_trans hdm (Nat.le_add_right _ _)
      · exact le_of_lt hup
    · have hntlt : nTestOf n < n := by
        rcases lt_or_eq_of_le hntle with hlt | heq
        · exact hlt
        · exfalso
          have hfleq : classes.map (fun c => g c * nTestOf n / n)
              = classes.map g :=
            List.map_congr_left (fun c₁ _ => by
              rw [heq]
              exact Nat.mul_div_cancel _ hn)
          rw [hfleq, hsum, heq] at hr1
          omega
      have hflt : g c * nTestOf n / n < g c := by
        rw [Nat.div_lt_iff_lt_mul hn]
        have := (Nat.mul_lt_mul_left (Nat.lt_of_lt_of_le Nat.zero_lt_one hm1)).mpr
          hntlt
        exact this
      subst ht
      refine ⟨Nat.succ_le_of_lt hflt, ?_, ?_⟩
      · calc (g c * nTestOf n / n + 1) * n
            = g c * nTestOf n / n * n + n := by ring
          _ ≤ g c * nTestOf n + n := Nat.add_le_add_right hdm n
      · have h14 : g c * nTestOf n ≤ (g c * nTestOf n / n + 1) * n := by
          calc g c * nTestOf n ≤ g c * nTestOf n / n * n + n := le_of_lt hup
            _ = (g c * nTestOf n / n + 1) * n := by ring
        exact le_trans h14 (Nat.le_add_right _ _)

/-- Core facts about the stratified split over a duplicate-free covering
class list: the dropped (train) and taken (test) parts permute the rows;
the taken part has exactly `ceil(3n/10)` rows; each class's taken count is
within one sample of exact proportionality; and the dropped part holds
each class's remaining records. -/
theorem stratified_core (seed : ℕ) (rows : List (List ℚ × ℤ))
    (classes : List ℤ) (hnd : classes.Nodup)
    (hcov : ∀ x ∈ rows, x.2 ∈ classes)
    (hpos : ∀ c ∈ classes, 1 ≤ (rows.filter (fun x => x.2 = c)).length) :
    ((droppedPart seed rows classes ++ takenPart seed rows classes).Perm rows)
    ∧ (takenPart seed rows classes).length = nTestOf rows.length
    ∧ (droppedPart seed rows classes).length
        = rows.length - nTestOf rows.length
    ∧ ∀ c : ℤ,
        countMem ((takenPart seed rows classes).map Prod.snd) c
          ≤ countMem (rows.map Prod.snd) c
        ∧ countMem ((takenPart seed rows classes).map Prod.snd) c
            * rows.length
          ≤ countMem (rows.map Prod.snd) c * nTestOf rows.length
            + rows.length
        ∧ countMem (rows.map Prod.snd) c * nTestOf rows.length
          ≤ countMem ((takenPart seed rows classes).map Prod.snd) c
              * rows.length + rows.length
        ∧ countMem ((droppedPart seed rows classes).map Prod.snd) c
            = countMem (rows.map Prod.snd) c
              - countMem ((takenPart seed rows classes).map Prod.snd) c := by
  rcases Nat.eq_zero_or_pos rows.length with hn0 | hn
  · have hrows : rows = [] := List.length_eq_zero.mp hn0
    subst hrows
    have hcls : classes = [] := by
      cases classes with
      | nil => rfl
      | cons c cs =>
        have := hpos c (List.mem_cons_self _ _)
        simp at this
    subst hcls
    refine ⟨List.Perm.refl _, rfl, rfl, ?_⟩
    intro c
    simp [droppedPart, takenPart, splitPairs, countMem]
  · have hperm0 : ((classes.map (fun c =>
        rows.filter (fun x => x.2 = c))).flatten).Perm rows :=
      flatten_filter_perm classes rows hnd hcov
    have hsum : (classes.map (fun c =>
        (rows.filter (fun x => x.2 = c)).length)).sum = rows.length := by
      have h1 := hperm0.length_eq
      rw [List.length_flatten, List.map_map] at h1
      simpa [Function.comp] using h1
    have halloc := alloc_facts
      (fun c => (rows.filter (fun x => x.2 = c)).length)
      classes rows.length hn hsum hpos
    have hpairs : splitPairs rows classes
        = classes.zip (addOnes (nTestOf rows.length
            - (classes.map (fun c =>
                (rows.filter (fun x => x.2 = c)).length
                  * nTestOf rows.length / rows.length)).sum)
            (classes.map (fun c =>
              (rows.filter (fun x => x.2 = c)).length
                * nTestOf rows.length / rows.length))) := by
      simp only [splitPairs, testShare, List.map_map]
      rfl
    set shs : List ℕ := addOnes (nTestOf rows.length
        - (classes.map (fun c =>
            (rows.filter (fun x => x.2 = c)).length
              * nTestOf rows.length / rows.length)).sum)
        (classes.map (fun c =>
          (rows.filter (fun x => x.2 = c)).length
            * nTestOf rows.length / rows.length)) with hshs
    obtain ⟨hallocsum, hallocpt⟩ := halloc
    have hsh_len : shs.length = classes.length := by
      rw [hshs, length_addOnes, List.length_map]
    have hfst : (splitPairs rows classes).map Prod.fst = classes := by
      rw [hpairs]
      exact List.map_fst_zip _ _ (le_of_eq hsh_len.symm)
    have hsnd : (splitPairs rows classes).map Prod.snd = shs := by
      rw [hpairs]
      exact List.map_snd_zip _ _ (le_of_eq hsh_len)
    have hT : ∀ pr ∈ splitPairs rows classes,
        pr.2 ≤ (rows.filter (fun x => x.2 = pr.1)).length := by
      intro pr hpr
      obtain ⟨c, t⟩ := pr
      rw [hpairs] at hpr
      exact (hallocpt c t hpr).1
    have hndfst : ((splitPairs rows classes).map Prod.fst).Nodup := by
      rw [hfst]
      exact hnd
    have hstrata := countMem_flatten_strata seed rows
      (splitPairs rows classes) hndfst hT
    have hmapstr : (splitPairs rows classes).map
        (fun pr => stratumOf seed rows pr.1)
        = classes.map (stratumOf seed rows) := by
      have h2 : (splitPairs rows classes).map
          (fun pr => stratumOf seed rows pr.1)
          = ((splitPairs rows classes).map Prod.fst).map
              (stratumOf seed rows) := by
        rw [List.map_map]
        rfl
      rw [h2, hfst]
    have hperm : (droppedPart seed rows classes
        ++ takenPart seed rows classes).Perm rows := by
      refine (split_parts_perm (stratumOf seed rows)
        (splitPairs rows classes)).trans ?_
      rw [hmapstr]
      exact (flatten_perm_of_forall (stratumOf seed rows)
        (fun c => rows.filter (fun x => x.2 = c)) classes
        (fun c _ => stratumOf_perm seed rows c)).trans hperm0
    have htklen : (takenPart seed rows classes).length
        = nTestOf rows.length := by
      rw [takenPart, List.length_flatten, List.map_map]
      have h3 : (splitPairs rows classes).map
          (List.length ∘ fun pr => (stratumOf seed rows pr.1).take pr.2)
          = (splitPairs rows classes).map Prod.snd := by
        refine List.map_congr_left ?_
        intro pr hpr
        simp only [Function.comp]
        rw [List.length_take, length_stratumOf]
        exact min_eq_left (hT pr hpr)
      rw [h3, hsnd]
      exact hallocsum
    have hdpsum : ((splitPairs rows classes).map (fun pr =>
        (rows.filter (fun x => x.2 = pr.1)).length)).sum = rows.length := by
      have h4 : (splitPairs rows classes).map (fun pr =>
          (rows.filter (fun x => x.2 = pr.1)).length)
          = ((splitPairs rows classes).map Prod.fst).map (fun c =>
              (rows.filter (fun x => x.2 = c)).length) := by
        rw [List.map_map]
        rfl
      rw [h4, hfst, hsum]
    have hsndsum : ((splitPairs rows classes).map Prod.snd).sum
        = nTestOf rows.length := by
      rw [hsnd]
      exact hallocsum
    have hdplen : (droppedPart seed rows classes).length
        = rows.length - nTestOf rows.length := by
      rw [droppedPart, List.length_flatten, List.map_map]
      have h5 : (splitPairs rows classes).map
          (List.length ∘ fun pr => (stratumOf seed rows pr.1).drop pr.2)
          = (splitPairs rows classes).map (fun pr =>
              (rows.filter (fun x => x.2 = pr.1)).length - pr.2) := by
        refine List.map_congr_left ?_
        intro pr _
        simp only [Function.comp]
        rw [List.length_drop, length_stratumOf]
      rw [h5, (sum_sub_pairs
          (fun c => (rows.filter (fun x => x.2 = c)).length)
          (splitPairs rows classes) hT).2, hdpsum, hsndsum]
    refine ⟨hperm, htklen, hdplen, ?_⟩
    intro c
    by_cases hc : c ∈ classes
    · obtain ⟨t, hmemz⟩ :=
        mem_zip_of_mem_left classes shs hsh_len.symm c hc
      have hmemp : (c, t) ∈ splitPairs rows classes := by
        rw [hpairs]
        exact hmemz
      have hcnt := hstrata.1 c t hmemp
      have hbounds := hallocpt c t hmemz
      have hrow : countMem (rows.map Prod.snd) c
          = (rows.filter (fun x => x.2 = c)).length := countMem_map_snd rows c
      have hcntT : countMem ((takenPart seed rows classes).map Prod.snd) c
          = t := hcnt.1
      have hcntD : countMem ((droppedPart seed rows classes).map Prod.snd) c
          = (rows.filter (fun x => x.2 = c)).length - t := hcnt.2
      rw [hcntT, hcntD, hrow]
      exact ⟨hbounds.1, hbounds.2.1, hbounds.2.2, rfl⟩
    · have hc2 : c ∉ (splitPairs rows classes).map Prod.fst := by
        rw [hfst]
        exact hc
      have hcnt := hstrata.2 c hc2
      have hrow0 : countMem (rows.map Prod.snd) c = 0 := by
        rw [countMem_map_snd, List.length_eq_zero, List.filter_eq_nil_iff]
        intro x hx
        simp only [decide_eq_true_eq]
        intro hxc
        exact hc (hxc ▸ hcov x hx)
      have hcntT : countMem ((takenPart seed rows classes).map Prod.snd) c
          = 0 := hcnt.1
      have hcntD : countMem ((droppedPart seed rows classes).map Prod.snd) c
          = 0 := hcnt.2
      rw [hcntT, hcntD, hrow0]
      exact ⟨le_refl 0, by omega, by omega, rfl⟩

theorem zip_map_proj {α β : Type} (l : List (α × β)) :
    (l.map Prod.fst).zip (l.map Prod.snd) = l := by
  induction l with
  | nil => rfl
  | cons x l ih => simp [ih]

theorem classesOf_nodup (ys : List ℤ) : (classesOf ys).Nodup :=
  ((List.perm_insertionSort _ ys.dedup).nodup_iff).mpr (List.nodup_dedup ys)

theorem mem_classesOf {ys : List ℤ} {y : ℤ} (hy : y ∈ ys) :
    y ∈ classesOf ys :=
  ((List.perm_insertionSort _ ys.dedup).mem_iff).mpr
    (List.mem_dedup.mpr hy)

/- ------------------------------------------------------------------ -/
/- Claim theorems about deduplication                                  -/
/- ------------------------------------------------------------------ -/

/-- C1: During per-shadow-model deduplication, for every probability
vector the first-seen membership label wins: if a later record has the
same exact probability vector but a different membership label, that later
record is dropped and a conflict is reported in the log, never merged or
averaged (the retained membership is exactly the first record's), never
fatal (the pass is a total function), and the first record is retained in
the output. -/
theorem dedup_first_seen_wins (es pre mid post : List Entry) (e₀ e₁ : Entry)
    (p : Prob) (hes : es = pre ++ e₀ :: mid ++ e₁ :: post)
    (hpre : ∀ e ∈ pre, e.prob ≠ p) (h₀ : e₀.prob = p) (h₁ : e₁.prob = p)
    (hm : e₁.member ≠ e₀.member) :
    (p, e₀.member, e₁.member) ∈ (extractDedup es).conflictLog
    ∧ e₀ ∈ zip3 (extractDedup es).probabilities (extractDedup es).labels
        (extractDedup es).members
    ∧ countProb (extractDedup es).probabilities p = 1
    ∧ ∀ e ∈ zip3 (extractDedup es).probabilities (extractDedup es).labels
        (extractDedup es).members, e.prob = p → e = e₀ := by
  subst hes
  have hsplit : pre ++ e₀ :: mid ++ e₁ :: post
      = (pre ++ [e₀]) ++ (mid ++ e₁ :: post) := by simp
  have hs1 : lookupMember (seenAfter [] pre) p = none := by
    rw [lookupMember_seenAfter [] pre hpre]
    rfl
  have hs2 : lookupMember (seenAfter [] (pre ++ [e₀])) p = some e₀.member := by
    rw [seenAfter_append]
    have hl0 : lookupMember (seenAfter [] pre) e₀.prob = none := by
      rw [h₀]
      exact hs1
    simp [seenAfter, hl0, hs1, lookupMember, h₀]
  have hconf : (p, e₀.member, e₁.member)
      ∈ (extractDedup (pre ++ e₀ :: mid ++ e₁ :: post)).conflictLog := by
    rw [extractDedup, hsplit, dedupGo_append]
    apply List.mem_append_right
    exact conflict_mem_of_lookup _ _ hs2 e₁ (by simp) h₁ hm
  have hzip := zip3_extractDedup (pre ++ e₀ :: mid ++ e₁ :: post)
  have hprobs := (dedupGo_eq_keepFirsts [] (pre ++ e₀ :: mid ++ e₁ :: post)).1
  simp only [List.map_nil] at hprobs
  have hpmem : p ∈ (pre ++ e₀ :: mid ++ e₁ :: post).map Entry.prob := by
    rw [← h₀]
    exact List.mem_map_of_mem _ (by simp)
  have hret : p ∈ (keepFirsts [] (pre ++ e₀ :: mid ++ e₁ :: post)).map
      Entry.prob :=
    mem_keepFirsts_prob.mpr ⟨by simp, hpmem⟩
  have hfind1 : (pre ++ e₀ :: mid ++ e₁ :: post).find?
      (fun x => x.prob == p) = some e₀ := by
    have := find?_first_occ (p := p) pre e₀ (mid ++ e₁ :: post) hpre h₀
    simpa using this
  have huniq : ∀ e ∈ keepFirsts [] (pre ++ e₀ :: mid ++ e₁ :: post),
      e.prob = p → e = e₀ := by
    intro e hemem hep
    have hfind := (keepFirsts_first_occurrence hemem).2
    rw [hep] at hfind
    rw [hfind1] at hfind
    exact (Option.some.inj hfind).symm
  refine ⟨hconf, ?_, ?_, ?_⟩
  · obtain ⟨e, hemem, hep⟩ := List.mem_map.mp hret
    have := huniq e hemem hep
    rw [hzip]
    exact this ▸ hemem
  · rw [extractDedup, hprobs]
    exact countProb_eq_one
      (keepFirsts_nodup [] (pre ++ e₀ :: mid ++ e₁ :: post)).1 hret
  · rw [hzip]
    exact huniq

/-- Witness for C1: the spec scenario, two records with identical
probability vector (0.5, 0.5, 0, ..., 0) and membership labels 1 then 0:
the conflict is logged with first-seen label 1 kept, the first record is
retained, and the vector appears exactly once afterwards. -/
theorem dedup_first_seen_wins_witness :
    ([(1 : ℚ)/2, 1/2, 0, 0, 0, 0, 0, 0, 0, 0], (1 : ℤ), (0 : ℤ))
        ∈ (extractDedup [⟨[(1 : ℚ)/2, 1/2, 0, 0, 0, 0, 0, 0, 0, 0], 3, 1⟩,
            ⟨[(1 : ℚ)/2, 1/2, 0, 0, 0, 0, 0, 0, 0, 0], 3, 0⟩]).conflictLog
    ∧ (⟨[(1 : ℚ)/2, 1/2, 0, 0, 0, 0, 0, 0, 0, 0], 3, 1⟩ : Entry)
        ∈ zip3 (extractDedup [⟨[(1 : ℚ)/2, 1/2, 0, 0, 0, 0, 0, 0, 0, 0], 3, 1⟩,
            ⟨[(1 : ℚ)/2, 1/2, 0, 0, 0, 0, 0, 0, 0, 0], 3, 0⟩]).probabilities
          (extractDedup [⟨[(1 : ℚ)/2, 1/2, 0, 0, 0, 0, 0, 0, 0, 0], 3, 1⟩,
            ⟨[(1 : ℚ)/2, 1/2, 0, 0, 0, 0, 0, 0, 0, 0], 3, 0⟩]).labels
          (extractDedup [⟨[(1 : ℚ)/2, 1/2, 0, 0, 0, 0, 0, 0, 0, 0], 3, 1⟩,
            ⟨[(1 : ℚ)/2, 1/2, 0, 0, 0, 0, 0, 0, 0, 0], 3, 0⟩]).members
    ∧ countProb (extractDedup [⟨[(1 : ℚ)/2, 1/2, 0, 0, 0, 0, 0, 0, 0, 0], 3, 1⟩,
        ⟨[(1 : ℚ)/2, 1/2, 0, 0, 0, 0, 0, 0, 0, 0], 3, 0⟩]).probabilities
          [(1 : ℚ)/2, 1/2, 0, 0, 0, 0, 0, 0, 0, 0] = 1
    ∧ ∀ e ∈ zip3 (extractDedup [⟨[(1 : ℚ)/2, 1/2, 0, 0, 0, 0, 0, 0, 0, 0], 3, 1⟩,
            ⟨[(1 : ℚ)/2, 1/2, 0, 0, 0, 0, 0, 0, 0, 0], 3, 0⟩]).probabilities
          (extractDedup [⟨[(1 : ℚ)/2, 1/2, 0, 0, 0, 0, 0, 0, 0, 0], 3, 1⟩,
            ⟨[(1 : ℚ)/2, 1/2, 0, 0, 0, 0, 0, 0, 0, 0], 3, 0⟩]).labels
          (extractDedup [⟨[(1 : ℚ)/2, 1/2, 0, 0, 0, 0, 0, 0, 0, 0], 3, 1⟩,
            ⟨[(1 : ℚ)/2, 1/2, 0, 0, 0, 0, 0, 0, 0, 0], 3, 0⟩]).members,
        e.prob = [(1 : ℚ)/2, 1/2, 0, 0, 0, 0, 0, 0, 0, 0]
          → e = ⟨[(1 : ℚ)/2, 1/2, 0, 0, 0, 0, 0, 0, 0, 0], 3, 1⟩ :=
  dedup_first_seen_wins _ [] [] []
    ⟨[(1 : ℚ)/2, 1/2, 0, 0, 0, 0, 0, 0, 0, 0], 3, 1⟩
    ⟨[(1 : ℚ)/2, 1/2, 0, 0, 0, 0, 0, 0, 0, 0], 3, 0⟩
    [(1 : ℚ)/2, 1/2, 0, 0, 0, 0, 0, 0, 0, 0]
    rfl (by simp) rfl rfl (by decide)

/-- C4: Deduplication is idempotent: applying the duplicate-filtering pass
to (the records of) its own output retains every record unchanged and logs
no conflict. -/
theorem dedup_idempotent (es : List Entry) :
    extractDedup (zip3 (extractDedup es).probabilities
        (extractDedup es).labels (extractDedup es).members)
      = ⟨(extractDedup es).probabilities, (extractDedup es).labels,
         (extractDedup es).members, []⟩ := by
  have hzip := zip3_extractDedup es
  have h := dedupGo_eq_keepFirsts [] es
  simp only [List.map_nil] at h
  rw [hzip, extractDedup,
    dedupGo_of_nodup [] _ (keepFirsts_nodup [] es).1 (by simp)]
  simp only [extractDedup] at h ⊢
  rw [h.1, h.2.1, h.2.2]

/-- C9: After deduplication each distinct exact probability vector appears
exactly once; a later record with an already-seen vector is dropped even
when its membership label agrees with the first occurrence, and when all
records with this vector agree on the label, no conflict at all is logged
for it. -/
theorem dedup_exactly_once_silent (es : List Entry) (p : Prob)
    (hp : p ∈ es.map Entry.prob) :
    countProb (extractDedup es).probabilities p = 1
    ∧ ∀ m₀ : ℤ, (∀ e ∈ es, e.prob = p → e.member = m₀) →
        ∀ m m' : ℤ, (p, m, m') ∉ (extractDedup es).conflictLog := by
  constructor
  · have h := (dedupGo_eq_keepFirsts [] es).1
    simp only [List.map_nil] at h
    rw [extractDedup, h]
    exact countProb_eq_one (keepFirsts_nodup [] es).1
      (mem_keepFirsts_prob.mpr ⟨by simp, hp⟩)
  · intro m₀ hall m m'
    exact no_conflict_of_agree [] es (Or.inl rfl) hall m m'

/-- Witness for C9: two records with the same vector and the same
membership label 1 (different ground-truth labels): the vector is kept
once and the conflict log stays empty for it. -/
theorem dedup_exactly_once_silent_witness :
    countProb (extractDedup [⟨[(1 : ℚ)/2, 1/2], 3, 1⟩,
        ⟨[(1 : ℚ)/2, 1/2], 2, 1⟩]).probabilities [(1 : ℚ)/2, 1/2] = 1
    ∧ ∀ m₀ : ℤ, (∀ e ∈ [(⟨[(1 : ℚ)/2, 1/2], 3, 1⟩ : Entry),
          ⟨[(1 : ℚ)/2, 1/2], 2, 1⟩], e.prob = [(1 : ℚ)/2, 1/2]
            → e.member = m₀) →
        ∀ m m' : ℤ, ([(1 : ℚ)/2, 1/2], m, m')
          ∉ (extractDedup [⟨[(1 : ℚ)/2, 1/2], 3, 1⟩,
              ⟨[(1 : ℚ)/2, 1/2], 2, 1⟩]).conflictLog :=
  dedup_exactly_once_silent
    [⟨[(1 : ℚ)/2, 1/2], 3, 1⟩, ⟨[(1 : ℚ)/2, 1/2], 2, 1⟩]
    [(1 : ℚ)/2, 1/2] (by simp)

/-- C10: Deduplication preserves input order and array alignment: the
three filtered arrays have equal length, the retained records form a
sublist of the input (order preserved), each retained record is the first
occurrence of its probability vector in the concatenated
train-then-test order, and a probability vector produced by both the train
partition (all records before the split point, member 1) and the test
partition (all records after it, member 0) is retained with membership
flag 1. -/
theorem dedup_alignment_order (es : List Entry) :
    ((extractDedup es).probabilities.length = (extractDedup es).labels.length
      ∧ (extractDedup es).labels.length = (extractDedup es).members.length)
    ∧ (zip3 (extractDedup es).probabilities (extractDedup es).labels
        (extractDedup es).members).Sublist es
    ∧ (∀ e ∈ zip3 (extractDedup es).probabilities (extractDedup es).labels
        (extractDedup es).members, es.find? (fun x => x.prob == e.prob) = some e)
    ∧ ∀ (train test : List Entry) (p : Prob), es = train ++ test →
        (∀ e ∈ train, e.member = 1) → (∀ e ∈ test, e.member = 0) →
        p ∈ train.map Entry.prob → p ∈ test.map Entry.prob →
        ∃ e ∈ zip3 (extractDedup es).probabilities (extractDedup es).labels
            (extractDedup es).members, e.prob = p ∧ e.member = 1 := by
  have hzip := zip3_extractDedup es
  have h := dedupGo_eq_keepFirsts [] es
  simp only [List.map_nil] at h
  refine ⟨⟨?_, ?_⟩, ?_, ?_, ?_⟩
  · rw [extractDedup, h.1, h.2.1]
    simp
  · rw [extractDedup, h.2.1, h.2.2]
    simp
  · rw [hzip]
    exact keepFirsts_sublist [] es
  · rw [hzip]
    intro e hemem
    exact (keepFirsts_first_occurrence hemem).2
  · intro train test p hsplit h1 h0 hptr hpte
    subst hsplit
    have hpmem : p ∈ (train ++ test).map Entry.prob := by
      rw [List.map_append]
      exact List.mem_append_left _ hptr
    have hret : p ∈ (keepFirsts [] (train ++ test)).map Entry.prob :=
      mem_keepFirsts_prob.mpr ⟨by simp, hpmem⟩
    obtain ⟨e, hemem, hep⟩ := List.mem_map.mp hret
    have hfind := (keepFirsts_first_occurrence hemem).2
    rw [hep] at hfind
    obtain ⟨x, hxmem, hxp⟩ := List.mem_map.mp hptr
    have hsome : (train.find? (fun y => y.prob == p)).isSome :=
      List.find?_isSome.mpr ⟨x, hxmem, by simp [hxp]⟩
    obtain ⟨e₁, he₁⟩ := Option.isSome_iff_exists.mp hsome
    have hfind2 : (train ++ test).find? (fun y => y.prob == p) = some e₁ := by
      rw [List.find?_append, he₁]
      rfl
    have hee : e = e₁ := by
      rw [hfind2] at hfind
      exact (Option.some.inj hfind).symm
    have he₁train : e₁ ∈ train := List.mem_of_find?_eq_some he₁
    refine ⟨e, by rw [hzip]; exact hemem, hep, ?_⟩
    rw [hee]
    exact h1 e₁ he₁train

/-- Witness for C10: one train record and one test record sharing the same
vector: the retained record carries membership 1. -/
theorem dedup_alignment_order_witness :
    ∃ e ∈ zip3 (extractDedup [⟨[(1 : ℚ)/2, 1/2], 3, 1⟩,
        ⟨[(1 : ℚ)/2, 1/2], 4, 0⟩]).probabilities
      (extractDedup [⟨[(1 : ℚ)/2, 1/2], 3, 1⟩,
        ⟨[(1 : ℚ)/2, 1/2], 4, 0⟩]).labels
      (extractDedup [⟨[(1 : ℚ)/2, 1/2], 3, 1⟩,
        ⟨[(1 : ℚ)/2, 1/2], 4, 0⟩]).members,
      e.prob = [(1 : ℚ)/2, 1/2] ∧ e.member = 1 :=
  (dedup_alignment_order [⟨[(1 : ℚ)/2, 1/2], 3, 1⟩,
      ⟨[(1 : ℚ)/2, 1/2], 4, 0⟩]).2.2.2
    [⟨[(1 : ℚ)/2, 1/2], 3, 1⟩] [⟨[(1 : ℚ)/2, 1/2], 4, 0⟩]
    [(1 : ℚ)/2, 1/2] rfl (by decide) (by decide) (by simp) (by simp)

/-- C2: For every batch of model outputs during extraction the softmax
probability vectors are checked to sum to 1 within floating tolerance
(numpy `allclose`): when some batch holds a vector failing the check, the
model's extraction aborts with the assertion's message (fatal, not
recovered, no archive saved), and this is the only way it aborts; when
every vector passes, the extraction completes and saves an archive. -/
theorem invariant_violation_fatal {α : Type} (env : ExtractEnv α)
    (hmodel : env.modelExists = true) :
    ((∃ b ∈ env.trainLoader ++ env.testLoader, ∃ s ∈ b,
        sumsCloseToOne (env.f s.1) = false)
      ↔ extract_probabilities env
          = ExtractResult.fatal "Probabilities do not sum up to 1!")
    ∧ ((∀ b ∈ env.trainLoader ++ env.testLoader, ∀ s ∈ b,
          sumsCloseToOne (env.f s.1) = true)
      → ∃ out, extract_probabilities env = ExtractResult.saved out) := by
  rcases get_outputs_cases env.f env.trainLoader 1 with
    ⟨htr, btr, hbtr, str, hstr, hftr⟩ | ⟨⟨⟨tp, tl, tm⟩, htr⟩, halltr⟩
  · constructor
    · constructor
      · intro _
        simp [extract_probabilities, hmodel, preDedup, htr]
      · intro _
        exact ⟨btr, List.mem_append_left _ hbtr, str, hstr, hftr⟩
    · intro hall
      have := hall btr (List.mem_append_left _ hbtr) str hstr
      rw [hftr] at this
      exact Bool.noConfusion this
  · rcases get_outputs_cases env.f env.testLoader 0 with
      ⟨hte, bte, hbte, ste, hste, hfte⟩ | ⟨⟨⟨sp, sl, sm⟩, hte⟩, hallte⟩
    · constructor
      · constructor
        · intro _
          simp [extract_probabilities, hmodel, preDedup, htr, hte]
        · intro _
          exact ⟨bte, List.mem_append_right _ hbte, ste, hste, hfte⟩
      · intro hall
        have := hall bte (List.mem_append_right _ hbte) ste hste
        rw [hfte] at this
        exact Bool.noConfusion this
    · constructor
      · constructor
        · rintro ⟨b, hbmem, s, hsmem, hsf⟩
          rcases List.mem_append.mp hbmem with hbm | hbm
          · have := halltr b hbm s hsmem
            rw [hsf] at this
            exact Bool.noConfusion this
          · have := hallte b hbm s hsmem
            rw [hsf] at this
            exact Bool.noConfusion this
        · intro hfatal
          simp [extract_probabilities, hmodel, preDedup, htr, hte] at hfatal
      · intro _
        exact ⟨extractDedup (zip3 (tp ++ sp) (tl ++ sl) (tm ++ sm)),
          by simp [extract_probabilities, hmodel, preDedup, htr, hte]⟩

/-- Witness for C2: a model whose output vector is (0.5) sums to 0.5, so
the extraction aborts with the assertion message. -/
theorem invariant_violation_fatal_witness :
    extract_probabilities
        (⟨true, fun _ : ℕ => [(1 : ℚ)/2], [[((0 : ℕ), (5 : ℤ))]], []⟩
          : ExtractEnv ℕ)
      = ExtractResult.fatal "Probabilities do not sum up to 1!" :=
  (invariant_violation_fatal
      (⟨true, fun _ : ℕ => [(1 : ℚ)/2], [[((0 : ℕ), (5 : ℤ))]], []⟩
        : ExtractEnv ℕ) rfl).1.mp
    ⟨[((0 : ℕ), (5 : ℤ))], by simp, ((0 : ℕ), (5 : ℤ)), by simp,
      by norm_num [sumsCloseToOne]⟩

/-- C7: Before deduplication, every record produced from the training
partition carries membership flag 1 and every record from the test
partition carries 0: the concatenated membership column is exactly one 1
per train sample followed by one 0 per test sample. -/
theorem members_before_dedup {α : Type} (env : ExtractEnv α)
    (ps : List Prob) (ls ms : List ℤ)
    (h : preDedup env = Except.ok (ps, ls, ms)) :
    ms = List.replicate (loaderSize env.trainLoader) 1
          ++ List.replicate (loaderSize env.testLoader) 0 := by
  cases htr : get_outputs env.f env.trainLoader 1 with
  | error e => simp [preDedup, htr] at h
  | ok res =>
    obtain ⟨tp, tl, tm⟩ := res
    cases hte : get_outputs env.f env.testLoader 0 with
    | error e => simp [preDedup, htr, hte] at h
    | ok res₂ =>
      obtain ⟨sp, sl, sm⟩ := res₂
      simp only [preDedup, htr, hte, Except.ok.injEq, Prod.mk.injEq] at h
      rw [← h.2.2, get_outputs_members env.f env.trainLoader 1 tp tl tm htr,
        get_outputs_members env.f env.testLoader 0 sp sl sm hte]

/-- Witness for C7: one train sample and one test sample produce the
membership column (1, 0). -/
theorem members_before_dedup_witness :
    [(1 : ℤ), 0] = List.replicate (loaderSize [[((0 : ℕ), (5 : ℤ))]]) 1
      ++ List.replicate (loaderSize [[((1 : ℕ), (7 : ℤ))]]) 0 :=
  members_before_dedup
    (⟨true, fun _ : ℕ => [(1 : ℚ)], [[((0 : ℕ), (5 : ℤ))]],
        [[((1 : ℕ), (7 : ℤ))]]⟩ : ExtractEnv ℕ)
    [[(1 : ℚ)], [(1 : ℚ)]] [5, 7] [(1 : ℤ), 0]
    (by norm_num [preDedup, get_outputs, sumsCloseToOne])

/-- C5: For every shadow-model id in the range 1..30, a missing train/test
data archive or missing model checkpoint makes the loop skip exactly that
id with a logged message (data-missing, or model-missing when the data
exists) and continue with the remaining ids unchanged: no abort, and no
archive is produced for the id (no other recovery). -/
theorem missing_artifact_skips {α : Type} (env : ℕ → IdEnv α) (id : ℕ)
    (pre post : List ℕ) (hid : shadowModelIds = pre ++ id :: post)
    (hmiss : (env id).trainDataExists = false
      ∨ (env id).testDataExists = false
      ∨ (env id).modelExists = false) :
    ((runIds env (id :: post)).log
        = (if (env id).trainDataExists && (env id).testDataExists
            then LogEvent.modelMissing id
            else LogEvent.dataMissing id) :: (runIds env post).log)
    ∧ (runIds env (id :: post)).archives = (runIds env post).archives
    ∧ (runIds env (id :: post)).fatalError = (runIds env post).fatalError := by
  cases hb : (env id).trainDataExists && (env id).testDataExists with
  | false => simp [runIds, hb]
  | true =>
    have hmodel : (env id).modelExists = false := by
      rcases hmiss with h | h | h
      · rw [h] at hb
        simp at hb
      · rw [h] at hb
        simp at hb
      · exact h
    have hskip : extract_probabilities (env id).extractEnv
        = ExtractResult.skippedModel := by
      simp [extract_probabilities, IdEnv.extractEnv, hmodel]
    simp [runIds, hb, hskip]

/-- Witness for C5: with every artifact absent, id 5 (the spec's scenario)
is skipped with a data-missing message and ids 6..30 are processed
unchanged. -/
theorem missing_artifact_skips_witness :
    ((runIds (fun _ => (⟨false, false, false, fun _ : ℕ => [], [], []⟩
          : IdEnv ℕ))
        (5 :: [6, 7, 8, 9, 10, 11, 12, 13, 14, 15, 16, 17, 18, 19, 20, 21,
          22, 23, 24, 25, 26, 27, 28, 29, 30])).log
      = (if (false : Bool) && (false : Bool) then LogEvent.modelMissing 5
          else LogEvent.dataMissing 5)
        :: (runIds (fun _ => (⟨false, false, false, fun _ : ℕ => [], [], []⟩
            : IdEnv ℕ))
          [6, 7, 8, 9, 10, 11, 12, 13, 14, 15, 16, 17, 18, 19, 20, 21, 22,
            23, 24, 25, 26, 27, 28, 29, 30]).log)
    ∧ (runIds (fun _ => (⟨false, false, false, fun _ : ℕ => [], [], []⟩
          : IdEnv ℕ))
        (5 :: [6, 7, 8, 9, 10, 11, 12, 13, 14, 15, 16, 17, 18, 19, 20, 21,
          22, 23, 24, 25, 26, 27, 28, 29, 30])).archives
      = (runIds (fun _ => (⟨false, false, false, fun _ : ℕ => [], [], []⟩
            : IdEnv ℕ))
          [6, 7, 8, 9, 10, 11, 12, 13, 14, 15, 16, 17, 18, 19, 20, 21, 22,
            23, 24, 25, 26, 27, 28, 29, 30]).archives
    ∧ (runIds (fun _ => (⟨false, false, false, fun _ : ℕ => [], [], []⟩
          : IdEnv ℕ))
        (5 :: [6, 7, 8, 9, 10, 11, 12, 13, 14, 15, 16, 17, 18, 19, 20, 21,
          22, 23, 24, 25, 26, 27, 28, 29, 30])).fatalError
      = (runIds (fun _ => (⟨false, false, false, fun _ : ℕ => [], [], []⟩
            : IdEnv ℕ))
          [6, 7, 8, 9, 10, 11, 12, 13, 14, 15, 16, 17, 18, 19, 20, 21, 22,
            23, 24, 25, 26, 27, 28, 29, 30]).fatalError :=
  missing_artifact_skips
    (fun _ => (⟨false, false, false, fun _ : ℕ => [], [], []⟩ : IdEnv ℕ))
    5 [1, 2, 3, 4]
    [6, 7, 8, 9, 10, 11, 12, 13, 14, 15, 16, 17, 18, 19, 20, 21, 22, 23,
      24, 25, 26, 27, 28, 29, 30]
    (by decide) (Or.inl rfl)

/-- C8 (spec-modelled): the per-shadow-model train and test sample index
sets, as produced by the data-preparation stage modelled in
`partitionSamples`, are disjoint: no sample index appears in both
partitions of the same shadow model. -/
theorem train_test_partitions_disjoint (pool : List ℕ) (nTrain : ℕ)
    (hnd : pool.Nodup) :
    (partitionSamples pool nTrain).1.Disjoint
      (partitionSamples pool nTrain).2 :=
  List.disjoint_take_drop hnd (le_refl nTrain)

/-- Witness for C8: the pool (1, 2, 3, 4) split after 2 gives disjoint
partitions (1, 2) and (3, 4). -/
theorem train_test_partitions_disjoint_witness :
    (partitionSamples [1, 2, 3, 4] 2).1.Disjoint
      (partitionSamples [1, 2, 3, 4] 2).2 :=
  train_test_partitions_disjoint [1, 2, 3, 4] 2 (by decide)

/-- C3: The aggregation step concatenates all per-shadow-model archives
into one dataset whose feature rows are the probability vector with the
ground-truth label appended (`combinedFeatures`), and performs one
stratified random split on the membership flag: the train and test parts
together are a permutation of the single combined dataset, the test part
holds `ceil(0.3 n)` records and the train part the remaining
`n - ceil(0.3 n)`, each membership class's test count is within one
record of its exact proportional share (the member/non-member proportion
is preserved up to rounding in both splits), and the output is two
feature arrays with two equally long membership-flag arrays. -/
theorem combine_attack_data_spec (ambientSeed : ℕ)
    (archives : List Archive)
    (hpar : ∀ a ∈ archives, a.probabilities.length = a.labels.length
      ∧ a.labels.length = a.members.length) :
    ((combine_attack_data ambientSeed archives).XTrain.length
        = (combine_attack_data ambientSeed archives).yTrain.length
      ∧ (combine_attack_data ambientSeed archives).XTest.length
        = (combine_attack_data ambientSeed archives).yTest.length)
    ∧ (combine_attack_data ambientSeed archives).yTest.length
        = nTestOf (combinedMembers archives).length
    ∧ (combine_attack_data ambientSeed archives).yTrain.length
        = (combinedMembers archives).length
          - nTestOf (combinedMembers archives).length
    ∧ (((combine_attack_data ambientSeed archives).XTrain.zip
          (combine_attack_data ambientSeed archives).yTrain)
        ++ ((combine_attack_data ambientSeed archives).XTest.zip
          (combine_attack_data ambientSeed archives).yTest)).Perm
        ((combinedFeatures archives).zip (combinedMembers archives))
    ∧ ∀ c : ℤ,
        countMem (combine_attack_data ambientSeed archives).yTest c
          ≤ countMem (combinedMembers archives) c
        ∧ countMem (combine_attack_data ambientSeed archives).yTest c
            * (combinedMembers archives).length
          ≤ countMem (combinedMembers archives) c
              * nTestOf (combinedMembers archives).length
            + (combinedMembers archives).length
        ∧ countMem (combinedMembers archives) c
              * nTestOf (combinedMembers archives).length
          ≤ countMem (combine_attack_data ambientSeed archives).yTest c
              * (combinedMembers archives).length
            + (combinedMembers archives).length
        ∧ countMem (combine_attack_data ambientSeed archives).yTrain c
            = countMem (combinedMembers archives) c
              - countMem (combine_attack_data ambientSeed archives).yTest c
    := by
  have hp1 : (combinedProbs archives).length
      = (archives.map (fun a => a.probabilities.length)).sum := by
    rw [combinedProbs, List.length_flatten, List.map_map]
    rfl
  have hp2 : (combinedLabels archives).length
      = (archives.map (fun a => a.labels.length)).sum := by
    rw [combinedLabels, List.length_flatten, List.map_map]
    rfl
  have hp3 : (combinedMembers archives).length
      = (archives.map (fun a => a.members.length)).sum := by
    rw [combinedMembers, List.length_flatten, List.map_map]
    rfl
  have he1 : archives.map (fun a => a.probabilities.length)
      = archives.map (fun a => a.members.length) :=
    List.map_congr_left (fun a ha => ((hpar a ha).1).trans (hpar a ha).2)
  have he2 : archives.map (fun a => a.labels.length)
      = archives.map (fun a => a.members.length) :=
    List.map_congr_left (fun a ha => (hpar a ha).2)
  have hlen_feats : (combinedFeatures archives).length
      = (combinedMembers archives).length := by
    rw [combinedFeatures, List.length_zipWith, hp1, hp2, hp3, he1, he2,
      min_self]
  have hsndrows : ((combinedFeatures archives).zip
      (combinedMembers archives)).map Prod.snd = combinedMembers archives :=
    List.map_snd_zip _ _ (le_of_eq hlen_feats.symm)
  have hrows_len : ((combinedFeatures archives).zip
      (combinedMembers archives)).length
      = (combinedMembers archives).length := by
    rw [List.length_zip, hlen_feats, min_self]
  have hnd := classesOf_nodup (((combinedFeatures archives).zip
      (combinedMembers archives)).map Prod.snd)
  have hcov : ∀ x ∈ (combinedFeatures archives).zip
      (combinedMembers archives),
      x.2 ∈ classesOf (((combinedFeatures archives).zip
        (combinedMembers archives)).map Prod.snd) :=
    fun x hx => mem_classesOf (List.mem_map_of_mem Prod.snd hx)
  have hpos : ∀ c ∈ classesOf (((combinedFeatures archives).zip
      (combinedMembers archives)).map Prod.snd),
      1 ≤ (((combinedFeatures archives).zip
        (combinedMembers archives)).filter
          (fun x => x.2 = c)).length := by
    intro c hcls
    have hmem : c ∈ ((combinedFeatures archives).zip
        (combinedMembers archives)).map Prod.snd := by
      have := (List.perm_insertionSort (fun a b => a ≤ b)
        (((combinedFeatures archives).zip
          (combinedMembers archives)).map Prod.snd).dedup).mem_iff.mp hcls
      exact List.mem_dedup.mp this
    obtain ⟨x, hx, hxc⟩ := List.mem_map.mp hmem
    exact List.length_pos_of_mem
      (List.mem_filter.mpr ⟨hx, by simp [hxc]⟩)
  have hcore := stratified_core 42
    ((combinedFeatures archives).zip (combinedMembers archives))
    (classesOf (((combinedFeatures archives).zip
      (combinedMembers archives)).map Prod.snd)) hnd hcov hpos
  rw [hsndrows, hrows_len] at hcore
  have hyTrain : (combine_attack_data ambientSeed archives).yTrain
      = (droppedPart 42 ((combinedFeatures archives).zip
          (combinedMembers archives))
        (classesOf (combinedMembers archives))).map Prod.snd := by
    show (droppedPart 42 ((combinedFeatures archives).zip
        (combinedMembers archives))
      (classesOf (((combinedFeatures archives).zip
        (combinedMembers archives)).map Prod.snd))).map Prod.snd = _
    rw [hsndrows]
  have hyTest : (combine_attack_data ambientSeed archives).yTest
      = (takenPart 42 ((combinedFeatures archives).zip
          (combinedMembers archives))
        (classesOf (combinedMembers archives))).map Prod.snd := by
    show (takenPart 42 ((combinedFeatures archives).zip
        (combinedMembers archives))
      (classesOf (((combinedFeatures archives).zip
        (combinedMembers archives)).map Prod.snd))).map Prod.snd = _
    rw [hsndrows]
  have hXTrain : (combine_attack_data ambientSeed archives).XTrain
      = (droppedPart 42 ((combinedFeatures archives).zip
          (combinedMembers archives))
        (classesOf (combinedMembers archives))).map Prod.fst := by
    show (droppedPart 42 ((combinedFeatures archives).zip
        (combinedMembers archives))
      (classesOf (((combinedFeatures archives).zip
        (combinedMembers archives)).map Prod.snd))).map Prod.fst = _
    rw [hsndrows]
  have hXTest : (combine_attack_data ambientSeed archives).XTest
      = (takenPart 42 ((combinedFeatures archives).zip
          (combinedMembers archives))
        (classesOf (combinedMembers archives))).map Prod.fst := by
    show (takenPart 42 ((combinedFeatures archives).zip
        (combinedMembers archives))
      (classesOf (((combinedFeatures archives).zip
        (combinedMembers archives)).map Prod.snd))).map Prod.fst = _
    rw [hsndrows]
  refine ⟨⟨?_, ?_⟩, ?_, ?_, ?_, ?_⟩
  · rw [hXTrain, hyTrain, List.length_map, List.length_map]
  · rw [hXTest, hyTest, List.length_map, List.length_map]
  · rw [hyTest, List.length_map]
    exact hcore.2.1
  · rw [hyTrain, List.length_map]
    exact hcore.2.2.1
  · rw [hXTrain, hyTrain, hXTest, hyTest, zip_map_proj, zip_map_proj]
    exact hcore.1
  · intro c
    rw [hyTest, hyTrain]
    exact hcore.2.2.2 c

/-- Witness for C3: one archive with a single record; the split's train
feature and membership arrays have equal length. -/
theorem combine_attack_data_spec_witness :
    (combine_attack_data 0 [⟨[[(1 : ℚ)]], [3], [1]⟩]).XTrain.length
      = (combine_attack_data 0 [⟨[[(1 : ℚ)]], [3], [1]⟩]).yTrain.length :=
  (combine_attack_data_spec 0 [⟨[[(1 : ℚ)]], [3], [1]⟩] (by simp)).1.1

/-- C6: The combined train/test split is deterministic: two runs of the
aggregation-and-split step on the same combined input dataset produce
identical outputs whatever the interpreter's ambient RNG state is,
because the split passes the fixed seed `random_state=42`. -/
theorem combine_attack_data_deterministic (archives : List Archive)
    (s₁ s₂ : ℕ) :
    combine_attack_data s₁ archives = combine_attack_data s₂ archives := rfl

end ExtractOutput
